import Mathlib

/-!
Verification of the merge logic of `merge_repos.py` (AltStore repository
merger).  The Python function `merge_manifests` is embedded shallowly:
JSON values become the inductive type `Json`, Python dicts become
association lists, Python exceptions become the `Except PyError` monad,
and the mutable accumulator (`merged["apps"]`, `seen_apps`,
`merged["news"]`) becomes the explicitly threaded state `MergeAcc`.
-/

/-- JSON values as produced by Python's `json.loads`: `null`, booleans,
numbers, strings, arrays, and objects (dicts with string keys, modelled
as association lists; `json.loads` never produces duplicate keys).
Numbers are modelled as integers; no claim under consideration depends
on non-integral numbers. -/
inductive Json where
  | null : Json
  | bool : Bool → Json
  | num : Int → Json
  | str : String → Json
  | arr : List Json → Json
  | obj : List (String × Json) → Json

/-- A manifest, i.e. one element of the `manifests` argument of
`merge_manifests` (typed `Dict[str, Any]` in the source): a JSON object,
modelled as an association list. -/
abbrev Manifest := List (String × Json)

/-- The Python exceptions that the embedded code can raise:
`ValueError` (empty manifest list), `TypeError` (iterating a
non-iterable, or putting an unhashable value into the seen set), and
`AttributeError` (calling `.get` on a non-dict app entry). -/
inductive PyError where
  | valueError : PyError
  | typeError : PyError
  | attributeError : PyError
  | recursionError : PyError
deriving DecidableEq

/-- Python truthiness of a JSON value: `None`, `False`, `0`, `""`, `[]`
and `{}` are falsy, everything else is truthy.  Used by the source's
`if bundle_id ...` / `elif not bundle_id` tests. -/
def truthy : Json → Bool
  | .null => false
  | .bool b => b
  | .num n => n != 0
  | .str s => s != ""
  | .arr xs => !xs.isEmpty
  | .obj kvs => !kvs.isEmpty

/-- Whether a JSON value is hashable in Python (scalars are, lists and
dicts are not).  `seen_apps` is a Python `set`, so a membership test on
an unhashable bundle identifier raises `TypeError`. -/
def hashable : Json → Bool
  | .arr _ => false
  | .obj _ => false
  | _ => true

/-- The canonical form of a hashable (scalar) JSON value under Python
equality.  In Python `True == 1` and `False == 0`, so booleans and
numbers collapse to the same key. -/
inductive PyKey where
  | knull : PyKey
  | kint : Int → PyKey
  | kstr : String → PyKey
deriving DecidableEq

/-- Maps a hashable JSON value to its canonical `PyKey` (`none` for the
unhashable values, i.e. arrays and objects).  Two hashable values are
Python-equal iff they have the same `PyKey`. -/
def normKey : Json → Option PyKey
  | .null => some .knull
  | .bool b => some (.kint (if b then 1 else 0))
  | .num n => some (.kint n)
  | .str s => some (.kstr s)
  | .arr _ => none
  | .obj _ => none

mutual

/-- Python `==` on JSON values: arrays compare elementwise in order,
objects compare as dicts (same size and, key-order-independently, every
key of the left side is present in the right with a Python-equal
value), and scalars compare via `normKey` (so `True == 1`,
`False == 0`, and distinct kinds are unequal). -/
def pyEq : Json → Json → Bool
  | .arr a, .arr b => pyEqList a b
  | .obj a, .obj b => a.length == b.length && pyEqObjAll a b
  | x, y =>
    match normKey x, normKey y with
    | some k1, some k2 => k1 == k2
    | _, _ => false

/-- Elementwise Python `==` on JSON arrays. -/
def pyEqList : List Json → List Json → Bool
  | [], [] => true
  | x :: xs, y :: ys => pyEq x y && pyEqList xs ys
  | _, _ => false

/-- Every key/value pair of the first object occurs (Python-equally) in
the second. -/
def pyEqObjAll : List (String × Json) → List (String × Json) → Bool
  | [], _ => true
  | (k, v) :: rest, ys => pyLookupEq k v ys && pyEqObjAll rest ys

/-- The key `k` is bound in `ys` to a value Python-equal to `v`. -/
def pyLookupEq : String → Json → List (String × Json) → Bool
  | _, _, [] => false
  | k, v, (k2, w) :: ys => if k == k2 then pyEq v w else pyLookupEq k v ys

end

/-- Python's `x in xs` membership test on a list (or, for the hashable
values fed to `seen_apps`, on a set): some element is Python-equal to
`x`. -/
def pyMem (x : Json) (xs : List Json) : Bool :=
  xs.any (fun y => pyEq x y)

/-- Python iteration `for v in x`: arrays yield their elements, strings
yield their one-character substrings, dicts yield their keys, and the
remaining values are not iterable (`TypeError`). -/
def pyIter : Json → Except PyError (List Json)
  | .arr xs => .ok xs
  | .str s => .ok (s.toList.map (fun c => .str (String.mk [c])))
  | .obj kvs => .ok (kvs.map (fun kv => .str kv.1))
  | _ => .error .typeError

/-- `app.get("bundleIdentifier", "")` of the source, as a total
function: the value bound to `"bundleIdentifier"`, defaulting to the
empty string.  (On a non-dict app the source raises `AttributeError`
before this read; the value returned here for non-objects is
irrelevant to any successful run.) -/
def bundleId : Json → Json
  | .obj kvs => (kvs.lookup "bundleIdentifier").getD (.str "")
  | _ => .str ""

/-- The mutable state of the merge loop: the accumulating
`merged["apps"]` list, the `seen_apps` set (a list of the identifiers
added so far, duplicate-free by construction), and the accumulating
`merged["news"]` list. -/
structure MergeAcc where
  apps : List Json
  seen_apps : List Json
  news : List Json

/-- One iteration of the app loop of `merge_manifests`, acting on the
pair (`merged["apps"]`, `seen_apps`):

    bundle_id = app.get("bundleIdentifier", "")
    if bundle_id and bundle_id not in seen_apps:
        merged["apps"].append(app)
        seen_apps.add(bundle_id)
    elif not bundle_id:
        merged["apps"].append(app)

`.get` on a non-dict raises `AttributeError`; the set lookup on a
truthy unhashable identifier raises `TypeError`. -/
def stepApp (acc : List Json × List Json) (app : Json) :
    Except PyError (List Json × List Json) :=
  match app with
  | .obj kvs =>
    let bundle_id := (kvs.lookup "bundleIdentifier").getD (.str "")
    if truthy bundle_id then
      if hashable bundle_id then
        if pyMem bundle_id acc.2 then .ok acc
        else .ok (acc.1 ++ [app], acc.2 ++ [bundle_id])
      else .error .typeError
    else .ok (acc.1 ++ [app], acc.2)
  | _ => .error .attributeError

/-- One iteration of the news loop of `merge_manifests`:

    if news_item not in merged["news"]:
        merged["news"].append(news_item)
-/
def stepNews (news : List Json) (news_item : Json) : List Json :=
  if pyMem news_item news then news else news ++ [news_item]

/-- `manifest["apps"]` as an iterable, with a missing key treated as
the empty iteration (the source skips the loop when
`"apps" not in manifest`). -/
def appsOf (manifest : Manifest) : Except PyError (List Json) :=
  match manifest.lookup "apps" with
  | none => .ok []
  | some v => pyIter v

/-- `manifest["news"]` as an iterable, with a missing key treated as
the empty iteration. -/
def newsOf (manifest : Manifest) : Except PyError (List Json) :=
  match manifest.lookup "news" with
  | none => .ok []
  | some v => pyIter v

/-- The body of `for manifest in manifests`: run the app loop, then the
news loop, of one manifest over the accumulator. -/
def processManifest (acc : MergeAcc) (manifest : Manifest) :
    Except PyError MergeAcc := do
  let apps ← appsOf manifest
  let pair ← apps.foldlM stepApp (acc.apps, acc.seen_apps)
  let items ← newsOf manifest
  pure ⟨pair.1, pair.2, items.foldl stepNews acc.news⟩

/-- The seven metadata keys copied from the first manifest. -/
def metadataKeys : List String :=
  ["sourceURL", "subtitle", "description", "iconURL", "headerURL", "website", "tintColor"]

/-- `merged[key] = v` on a dict modelled as an association list:
overwrite the binding if the key is present, else append a new binding
(Python dicts keep insertion order). -/
def dictSet (d : List (String × Json)) (key : String) (v : Json) :
    List (String × Json) :=
  if (d.lookup key).isSome then
    d.map (fun kv => if kv.1 = key then (key, v) else kv)
  else d ++ [(key, v)]

/-- The metadata-copy loop of `merge_manifests`:

    for key in ["sourceURL", "subtitle", "description", "iconURL",
                "headerURL", "website", "tintColor"]:
        if key in first_manifest:
            merged[key] = first_manifest[key]
-/
def copyMetadata (first_manifest : Manifest) (merged : List (String × Json)) :
    List (String × Json) :=
  metadataKeys.foldl
    (fun acc key =>
      match first_manifest.lookup key with
      | some v => dictSet acc key v
      | none => acc)
    merged

/-- The default icon URL installed in step 1 of the merge. -/
def defaultIconURL : String := "https://octonezd.me/octo-ios-repo/icon.jpg"

/-- The embedding of `merge_manifests(manifests, output_name)`.  An
empty manifest list raises `ValueError`; otherwise the manifests are
folded through `processManifest` starting from empty accumulators, the
result dict is assembled from the fixed `name`/`identifier`/`iconURL`
fields and the accumulated `apps`/`news`, and the metadata keys of the
first manifest are copied over it.  (The source allocates the result
dict before the loop and mutates its `apps`/`news` lists in place;
since nothing reads the other fields during the loop, assembling the
dict after the loop yields the identical dict.) -/
def merge_manifests (manifests : List Manifest) (output_name : String) :
    Except PyError (List (String × Json)) :=
  match manifests with
  | [] => .error .valueError
  | first_manifest :: _ => do
    let acc ← manifests.foldlM processManifest ⟨[], [], []⟩
    let merged : List (String × Json) :=
      [("name", .str output_name),
       ("identifier", .str "com.octonezd.merged-repo"),
       ("iconURL", .str defaultIconURL),
       ("apps", .arr acc.apps),
       ("news", .arr acc.news)]
    pure (copyMetadata first_manifest merged)

/-- Pure mirror of the app loop, used to reason about successful runs:
`dedupAppend apps seen l` runs the dedup loop over `l` (no error
cases; it agrees with the `stepApp` fold whenever the latter
succeeds). -/
def dedupAppend (apps seen : List Json) : List Json → List Json × List Json
  | [] => (apps, seen)
  | app :: rest =>
    let bundle_id := bundleId app
    if truthy bundle_id then
      if pyMem bundle_id seen then dedupAppend apps seen rest
      else dedupAppend (apps ++ [app]) (seen ++ [bundle_id]) rest
    else dedupAppend (apps ++ [app]) seen rest

/-- The concatenation, in input order, of the app sequences of all
input manifests (erroring exactly when some manifest's `apps` field is
not iterable). -/
def collectApps : List Manifest → Except PyError (List Json)
  | [] => .ok []
  | m :: ms => do
    let a ← appsOf m
    let rest ← collectApps ms
    pure (a ++ rest)

/-- The concatenation, in input order, of the news sequences of all
input manifests. -/
def collectNews : List Manifest → Except PyError (List Json)
  | [] => .ok []
  | m :: ms => do
    let n ← newsOf m
    let rest ← collectNews ms
    pure (n ++ rest)

/-- The dedup key of an app entry: the canonical `PyKey` of its bundle
identifier when that identifier is truthy, `none` when the identifier
is falsy (falsy identifiers are never recorded in `seen_apps`) or
unhashable. -/
def appKey (app : Json) : Option PyKey :=
  if truthy (bundleId app) then normKey (bundleId app) else none

/-! ### Heap model

The pure embedding above cannot even express mutation of the inputs,
so the frame property "merge leaves its inputs unchanged" is settled
against a second, reference-faithful embedding: Python objects live on
an explicit heap, scalars are immutable inline values, and lists,
dicts and sets are mutable heap cells addressed by `Nat`.  Every
mutating statement of `merge_manifests` becomes an explicit heap
write; the input manifests are pre-existing heap cells. -/

/-- A Python runtime value: immutable scalars inline, mutable objects
by reference. -/
inductive PyVal where
  | vnull : PyVal
  | vbool : Bool → PyVal
  | vnum : Int → PyVal
  | vstr : String → PyVal
  | ref : Nat → PyVal
deriving DecidableEq

/-- A mutable Python heap object: a list, a dict, or a set. -/
inductive PyObj where
  | plist : List PyVal → PyObj
  | pdict : List (String × PyVal) → PyObj
  | pset : List PyVal → PyObj

/-- The Python heap: cell `a` of the store is the object at address
`a`. -/
abbrev Heap := List PyObj

/-- Allocate a new object; its address is the previous heap size. -/
def halloc (h : Heap) (o : PyObj) : Heap × Nat :=
  (h ++ [o], h.length)

/-- Overwrite the object at an address (in-place mutation of a list,
dict or set). -/
def hwrite (h : Heap) (a : Nat) (o : PyObj) : Heap :=
  h.set a o

/-- The canonical key of a hashable (scalar) runtime value, `none` for
references (lists, dicts and sets are unhashable). -/
def scalarKey : PyVal → Option PyKey
  | .vnull => some .knull
  | .vbool b => some (.kint (if b then 1 else 0))
  | .vnum n => some (.kint n)
  | .vstr s => some (.kstr s)
  | .ref _ => none

/-- Python truthiness of a runtime value; containers are truthy iff
non-empty, which requires a heap read.  A dangling address (impossible
in a real run) is reported as `TypeError`. -/
def heapTruthy (h : Heap) : PyVal → Except PyError Bool
  | .vnull => pure false
  | .vbool b => pure b
  | .vnum n => pure (n != 0)
  | .vstr s => pure (s != "")
  | .ref a =>
    match h[a]? with
    | some (.plist xs) => pure (!xs.isEmpty)
    | some (.pdict kvs) => pure (!kvs.isEmpty)
    | some (.pset xs) => pure (!xs.isEmpty)
    | none => .error .typeError

/-- Hashability of a runtime value: scalars only. -/
def heapHashable : PyVal → Bool
  | .ref _ => false
  | _ => true

/-- Python iteration `for v in x` on the heap: strings yield
one-character strings, lists and sets their elements, dicts their
keys; scalars are not iterable. -/
def heapIter (h : Heap) : PyVal → Except PyError (List PyVal)
  | .vstr s => .ok (s.toList.map (fun c => .vstr (String.mk [c])))
  | .ref a =>
    match h[a]? with
    | some (.plist xs) => .ok xs
    | some (.pdict kvs) => .ok (kvs.map (fun kv => .vstr kv.1))
    | some (.pset xs) => .ok xs
    | none => .error .typeError
  | _ => .error .typeError

/-- Read a list cell. -/
def readList (h : Heap) (a : Nat) : Except PyError (List PyVal) :=
  match h[a]? with
  | some (.plist xs) => .ok xs
  | _ => .error .typeError

/-- Read a dict cell. -/
def readDict (h : Heap) (a : Nat) : Except PyError (List (String × PyVal)) :=
  match h[a]? with
  | some (.pdict kvs) => .ok kvs
  | _ => .error .typeError

/-- Read a set cell. -/
def readSet (h : Heap) (a : Nat) : Except PyError (List PyVal) :=
  match h[a]? with
  | some (.pset xs) => .ok xs
  | _ => .error .typeError

mutual

/-- Python `==` on runtime values over a heap.  References are
dereferenced, which consumes one unit of fuel; on an acyclic heap a
reference chain never revisits a cell, so `h.length + 1` fuel units
always suffice, and running out of fuel (a cyclic value) is Python's
`RecursionError`. -/
def heapEqVal (fuel : Nat) (h : Heap) : PyVal → PyVal → Except PyError Bool
  | .ref a, .ref b =>
    match fuel with
    | 0 => .error .recursionError
    | fuel' + 1 =>
      match h[a]?, h[b]? with
      | some o1, some o2 => heapEqObj fuel' h o1 o2
      | _, _ => .error .typeError
  | x, y => pure (scalarKey x = scalarKey y && (scalarKey x).isSome)

/-- Python `==` on two heap objects: lists compare by length and then
elementwise, dicts as key-order-independent maps, sets by their sets
of (scalar) member keys; mixed kinds are unequal. -/
def heapEqObj (fuel : Nat) (h : Heap) : PyObj → PyObj → Except PyError Bool
  | .plist xs, .plist ys =>
    if xs.length = ys.length then heapEqList fuel h xs ys else pure false
  | .pdict xs, .pdict ys =>
    if xs.length = ys.length then heapEqDict fuel h xs ys else pure false
  | .pset xs, .pset ys =>
    pure ((xs.filterMap scalarKey).all (· ∈ ys.filterMap scalarKey) &&
      (ys.filterMap scalarKey).all (· ∈ xs.filterMap scalarKey))
  | _, _ => pure false

/-- Elementwise Python `==` on heap lists. -/
def heapEqList (fuel : Nat) (h : Heap) : List PyVal → List PyVal → Except PyError Bool
  | [], [] => pure true
  | x :: xs, y :: ys => do
    let b ← heapEqVal fuel h x y
    if b then heapEqList fuel h xs ys else pure false
  | _, _ => pure false

/-- Every binding of the first dict occurs, Python-equally, in the
second. -/
def heapEqDict (fuel : Nat) (h : Heap) :
    List (String × PyVal) → List (String × PyVal) → Except PyError Bool
  | [], _ => pure true
  | (k, v) :: rest, ys => do
    let b ← heapLookupEq fuel h k v ys
    if b then heapEqDict fuel h rest ys else pure false

/-- The key `k` is bound in `ys` to a value Python-equal to `v`. -/
def heapLookupEq (fuel : Nat) (h : Heap) (k : String) (v : PyVal) :
    List (String × PyVal) → Except PyError Bool
  | [] => pure false
  | (k2, w) :: ys =>
    if k = k2 then heapEqVal fuel h v w else heapLookupEq fuel h k v ys

end

/-- Python `x in xs` on a heap list (linear scan with `==`). -/
def heapMemList (h : Heap) (x : PyVal) : List PyVal → Except PyError Bool
  | [] => pure false
  | y :: rest => do
    let b ← heapEqVal (h.length + 1) h x y
    if b then pure true else heapMemList h x rest

/-- Python `x in s` on a set of hashable members: canonical-key
membership. -/
def heapMemSet (x : PyVal) (ys : List PyVal) : Bool :=
  (scalarKey x).isSome && decide ((scalarKey x).getD .knull ∈ ys.filterMap (scalarKey))

/-- `d[key] = v` on a heap dict payload: overwrite a present binding,
else append (insertion order preserved). -/
def pdictSet (kvs : List (String × PyVal)) (key : String) (v : PyVal) :
    List (String × PyVal) :=
  if (kvs.lookup key).isSome then
    kvs.map (fun kv => if kv.1 = key then (key, v) else kv)
  else kvs ++ [(key, v)]

/-- `app.get(...)` receiver resolution: an app value must be a
reference to a dict, else `AttributeError`. -/
def appDictOf (h : Heap) : PyVal → Except PyError (List (String × PyVal))
  | .ref a => readDict h a
  | _ => .error .attributeError

/-- `manifest[key]` as an iterable, the missing key treated as the
empty iteration (the source skips the loop when the key is absent). -/
def itemsOfKey (h : Heap) (kvs : List (String × PyVal)) (key : String) :
    Except PyError (List PyVal) :=
  match kvs.lookup key with
  | none => .ok []
  | some v => heapIter h v

/-- Heap version of one iteration of the app loop: `appv` is the
current app value (a reference to a dict for any successful step), and
the accumulating `merged["apps"]` list and `seen_apps` set live at the
fixed addresses `aApps` and `aSeen`. -/
def stepAppHeap (aApps aSeen : Nat) (h : Heap) (appv : PyVal) :
    Except PyError Heap := do
  let kvs ← appDictOf h appv
  let bundle_id := (kvs.lookup "bundleIdentifier").getD (.vstr "")
  let tb ← heapTruthy h bundle_id
  if tb then
    if heapHashable bundle_id then do
      let seen ← readSet h aSeen
      if heapMemSet bundle_id seen then pure h
      else do
        let apps ← readList h aApps
        let h1 := hwrite h aApps (.plist (apps ++ [appv]))
        pure (hwrite h1 aSeen (.pset (seen ++ [bundle_id])))
    else .error .typeError
  else do
    let apps ← readList h aApps
    pure (hwrite h aApps (.plist (apps ++ [appv])))

/-- Heap version of one iteration of the news loop. -/
def stepNewsHeap (aNews : Nat) (h : Heap) (nv : PyVal) : Except PyError Heap := do
  let news ← readList h aNews
  let b ← heapMemList h nv news
  if b then pure h
  else pure (hwrite h aNews (.plist (news ++ [nv])))

/-- Heap version of the body of `for manifest in manifests` (the
manifest dict is re-read before the news loop, mirroring Python's
evaluation of `"news" in manifest` at that point). -/
def processManifestHeap (aApps aNews aSeen : Nat) (h : Heap) (mref : Nat) :
    Except PyError Heap := do
  let kvs ← readDict h mref
  let items ← itemsOfKey h kvs "apps"
  let h1 ← items.foldlM (stepAppHeap aApps aSeen) h
  let kvs1 ← readDict h1 mref
  let nitems ← itemsOfKey h1 kvs1 "news"
  nitems.foldlM (stepNewsHeap aNews) h1

/-- The metadata-copy loop on the heap: for each present metadata key
of the first manifest, write the binding into the merged dict cell. -/
def copyMetadataHeap (aMerged : Nat) (first_kvs : List (String × PyVal)) (h : Heap) :
    Except PyError Heap :=
  metadataKeys.foldlM
    (fun hcur key =>
      match first_kvs.lookup key with
      | some v => do
        let merged ← readDict hcur aMerged
        pure (hwrite hcur aMerged (.pdict (pdictSet merged key v)))
      | none => pure hcur)
    h

/-- The embedding of `merge_manifests` over the explicit heap:
`manifests` is the list of heap addresses of the input manifest dicts;
the result is the final heap and the address of the freshly allocated
merged dict.  The result dict, its `apps` and `news` lists and the
`seen_apps` set are allocated up front (fresh addresses); every
mutation of the run is a write to one of those four cells. -/
def merge_manifests_heap (h0 : Heap) (manifests : List Nat) (output_name : String) :
    Except PyError (Heap × Nat) :=
  match manifests with
  | [] => .error .valueError
  | firstRef :: _ => do
    let (h1, aApps) := halloc h0 (.plist [])
    let (h2, aNews) := halloc h1 (.plist [])
    let (h3, aMerged) := halloc h2 (.pdict
      [("name", .vstr output_name),
       ("identifier", .vstr "com.octonezd.merged-repo"),
       ("iconURL", .vstr defaultIconURL),
       ("apps", .ref aApps),
       ("news", .ref aNews)])
    let (h4, aSeen) := halloc h3 (.pset [])
    let h5 ← manifests.foldlM (processManifestHeap aApps aNews aSeen) h4
    let first_kvs ← readDict h5 firstRef
    let h6 ← copyMetadataHeap aMerged first_kvs h5
    pure (h6, aMerged)

/-! ### Basic facts about Python equality on hashable (scalar) values -/

/-- On hashable values, Python equality is equality of canonical keys. -/
theorem pyEq_iff_normKey (x y : Json) (hx : hashable x = true)
    (hy : hashable y = true) : pyEq x y = true ↔ normKey x = normKey y := by
  cases x <;> cases y <;> simp_all [hashable, pyEq, normKey]

/-- A hashable value and a value of different truthiness are never
Python-equal. -/
theorem pyEq_false_of_truthy_ne (x y : Json) (hy : hashable y = true)
    (h : truthy x ≠ truthy y) : pyEq x y = false := by
  cases x <;> cases y <;> simp_all [hashable, pyEq, normKey, truthy] <;>
    first
      | omega
      | (rintro rfl; exact h rfl)
      | (rename_i a b; cases a <;> cases b <;> simp_all <;> omega)

/-- Every hashable value has a canonical key. -/
theorem normKey_isSome_of_hashable (x : Json) (hx : hashable x = true) :
    ∃ k, normKey x = some k := by
  cases x <;> simp_all [hashable, normKey]

/-- On a list of hashable values, Python membership is membership of
canonical keys. -/
theorem pyMem_iff (x : Json) (S : List Json) (hx : hashable x = true)
    (hS : ∀ s ∈ S, hashable s = true) :
    pyMem x S = true ↔ ∃ s ∈ S, normKey s = normKey x := by
  unfold pyMem
  rw [List.any_eq_true]
  constructor
  · rintro ⟨s, hs, heq⟩
    exact ⟨s, hs, ((pyEq_iff_normKey x s hx (hS s hs)).mp heq).symm⟩
  · rintro ⟨s, hs, heq⟩
    exact ⟨s, hs, (pyEq_iff_normKey x s hx (hS s hs)).mpr heq.symm⟩

/-- Useful unfolding of `Except` bind success. -/
theorem except_bind_ok {ε α β : Type} (x : Except ε α) (f : α → Except ε β) (b : β) :
    (x >>= f) = .ok b ↔ ∃ a, x = .ok a ∧ f a = .ok b := by
  cases x <;> simp [Bind.bind, Except.bind]

/-- On success, the app-loop fold agrees with the pure `dedupAppend`,
and every truthy identifier it consumed is hashable. -/
theorem foldlM_stepApp_ok (l : List Json) :
    ∀ A S A' S', l.foldlM stepApp (A, S) = .ok (A', S') →
      (A', S') = dedupAppend A S l ∧
        ∀ a ∈ l, truthy (bundleId a) = true → hashable (bundleId a) = true := by
  induction l with
  | nil =>
    intro A S A' S' h
    simp only [List.foldlM_nil] at h
    cases h
    simp [dedupAppend]
  | cons a rest ih =>
    intro A S A' S' h
    simp only [List.foldlM_cons] at h
    rw [except_bind_ok] at h
    obtain ⟨p, hp, hrest⟩ := h
    cases a with
    | null => simp [stepApp] at hp
    | bool b => simp [stepApp] at hp
    | num n => simp [stepApp] at hp
    | str s => simp [stepApp] at hp
    | arr xs => simp [stepApp] at hp
    | obj kvs =>
      simp only [stepApp] at hp
      by_cases ht : truthy ((kvs.lookup "bundleIdentifier").getD (.str "")) = true
      · by_cases hh : hashable ((kvs.lookup "bundleIdentifier").getD (.str "")) = true
        · simp only [ht, hh, if_true] at hp
          by_cases hm : pyMem ((kvs.lookup "bundleIdentifier").getD (.str "")) S = true
          · simp only [hm, if_true] at hp
            cases hp
            obtain ⟨h1, h2⟩ := ih A S A' S' hrest
            refine ⟨?_, fun b hb htb => ?_⟩
            · rw [dedupAppend]
              simp only [bundleId, ht, hm, if_true]
              exact h1
            · rcases List.mem_cons.mp hb with rfl | hb'
              · simpa [bundleId] using hh
              · exact h2 b hb' htb
          · simp only [Bool.not_eq_true] at hm
            simp only [hm, if_false] at hp
            cases hp
            obtain ⟨h1, h2⟩ := ih _ _ A' S' hrest
            refine ⟨?_, fun b hb htb => ?_⟩
            · rw [dedupAppend]
              simp only [bundleId, ht, hm, if_true, if_false]
              exact h1
            · rcases List.mem_cons.mp hb with rfl | hb'
              · simpa [bundleId] using hh
              · exact h2 b hb' htb
        · simp [ht, hh] at hp
      · simp only [Bool.not_eq_true] at ht
        simp only [ht, if_false] at hp
        cases hp
        obtain ⟨h1, h2⟩ := ih _ _ A' S' hrest
        refine ⟨?_, fun b hb htb => ?_⟩
        · rw [dedupAppend]
          simp only [bundleId, ht, if_false]
          exact h1
        · rcases List.mem_cons.mp hb with rfl | hb'
          · simp [bundleId, ht] at htb
          · exact h2 b hb' htb

/-- Decomposition of a successful `processManifest` run. -/
theorem processManifest_ok (acc acc' : MergeAcc) (m : Manifest)
    (h : processManifest acc m = .ok acc') :
    ∃ as ns, appsOf m = .ok as ∧ newsOf m = .ok ns ∧
      as.foldlM stepApp (acc.apps, acc.seen_apps) = .ok (acc'.apps, acc'.seen_apps) ∧
      acc'.news = ns.foldl stepNews acc.news := by
  unfold processManifest at h
  rw [except_bind_ok] at h
  obtain ⟨as, has, h⟩ := h
  rw [except_bind_ok] at h
  obtain ⟨pair, hpair, h⟩ := h
  rw [except_bind_ok] at h
  obtain ⟨ns, hns, h⟩ := h
  have hinj : acc' = ⟨pair.1, pair.2, ns.foldl stepNews acc.news⟩ := by
    cases h
    rfl
  subst hinj
  exact ⟨as, ns, has, hns, by simpa using hpair, rfl⟩

/-- `dedupAppend` splits over list concatenation. -/
theorem dedupAppend_append (xs ys : List Json) :
    ∀ A S, dedupAppend A S (xs ++ ys) =
      dedupAppend (dedupAppend A S xs).1 (dedupAppend A S xs).2 ys := by
  induction xs with
  | nil => intro A S; simp [dedupAppend]
  | cons a rest ih =>
    intro A S
    simp only [List.cons_append]
    by_cases ht : truthy (bundleId a) = true
    · by_cases hm : pyMem (bundleId a) S = true
      · simp [dedupAppend, ht, hm, ih]
      · simp only [Bool.not_eq_true] at hm
        simp [dedupAppend, ht, hm, ih]
    · simp only [Bool.not_eq_true] at ht
      simp [dedupAppend, ht, ih]

/-- On success, the manifest fold agrees with the pure dedup loop over
the concatenation of all app sequences and the news fold over the
concatenation of all news sequences; all truthy identifiers seen along
the way are hashable. -/
theorem foldlM_processManifest_ok (ms : List Manifest) :
    ∀ acc acc', ms.foldlM processManifest acc = .ok acc' →
      ∃ allA allN, collectApps ms = .ok allA ∧ collectNews ms = .ok allN ∧
        (acc'.apps, acc'.seen_apps) = dedupAppend acc.apps acc.seen_apps allA ∧
        acc'.news = allN.foldl stepNews acc.news ∧
        (∀ a ∈ allA, truthy (bundleId a) = true → hashable (bundleId a) = true) := by
  induction ms with
  | nil =>
    intro acc acc' h
    simp only [List.foldlM_nil] at h
    cases h
    exact ⟨[], [], rfl, rfl, by simp [dedupAppend], rfl, by simp⟩
  | cons m ms ih =>
    intro acc acc' h
    simp only [List.foldlM_cons] at h
    rw [except_bind_ok] at h
    obtain ⟨acc1, hacc1, hrest⟩ := h
    obtain ⟨as, ns, has, hns, hfold, hnews⟩ := processManifest_ok _ _ _ hacc1
    obtain ⟨h1, h2⟩ := foldlM_stepApp_ok as _ _ _ _ hfold
    obtain ⟨allA, allN, hca, hcn, hda, hfn, hhash⟩ := ih acc1 acc' hrest
    refine ⟨as ++ allA, ns ++ allN, ?_, ?_, ?_, ?_, ?_⟩
    · simp [collectApps, has, hca, Bind.bind, Except.bind, Pure.pure, Except.pure]
    · simp [collectNews, hns, hcn, Bind.bind, Except.bind, Pure.pure, Except.pure]
    · rw [dedupAppend_append, ← h1, hda]
    · rw [hfn, hnews, List.foldl_append]
    · intro a ha hta
      rcases List.mem_append.mp ha with ha' | ha'
      · exact h2 a ha' hta
      · exact hhash a ha' hta

/-- Decomposition of a successful `merge_manifests` run. -/
theorem merge_manifests_ok (manifests : List Manifest) (output_name : String)
    (m : List (String × Json))
    (h : merge_manifests manifests output_name = .ok m) :
    ∃ first rest acc, manifests = first :: rest ∧
      manifests.foldlM processManifest ⟨[], [], []⟩ = .ok acc ∧
      m = copyMetadata first
        [("name", .str output_name),
         ("identifier", .str "com.octonezd.merged-repo"),
         ("iconURL", .str defaultIconURL),
         ("apps", .arr acc.apps),
         ("news", .arr acc.news)] := by
  match manifests with
  | [] => simp [merge_manifests] at h
  | first :: rest =>
    unfold merge_manifests at h
    rw [except_bind_ok] at h
    obtain ⟨acc, hacc, h⟩ := h
    refine ⟨first, rest, acc, rfl, hacc, ?_⟩
    cases h
    rfl

/-- Python equality is reflexive on hashable values. -/
theorem pyEq_self_of_hashable (x : Json) (hx : hashable x = true) :
    pyEq x x = true :=
  (pyEq_iff_normKey x x hx hx).mpr rfl

/-- Python equality is symmetric on hashable values. -/
theorem pyEq_comm_of_hashable (x y : Json) (hx : hashable x = true)
    (hy : hashable y = true) : pyEq x y = pyEq y x := by
  by_cases h : pyEq x y = true
  · rw [h, Eq.symm ((pyEq_iff_normKey y x hy hx).mpr ((pyEq_iff_normKey x y hx hy).mp h).symm)]
  · simp only [Bool.not_eq_true] at h
    rw [h]
    by_cases h' : pyEq y x = true
    · exact absurd ((pyEq_iff_normKey x y hx hy).mpr ((pyEq_iff_normKey y x hy hx).mp h').symm)
        (by simp [h])
    · simp only [Bool.not_eq_true] at h'
      rw [h']

/-- Python membership distributes over append. -/
theorem pyMem_append (x : Json) (S T : List Json) :
    pyMem x (S ++ T) = (pyMem x S || pyMem x T) := by
  simp [pyMem, List.any_append]

/-- Python membership in a singleton. -/
theorem pyMem_singleton (x y : Json) : pyMem x [y] = pyEq x y := by
  simp [pyMem]

/-- The first component of `dedupAppend` extends `apps` by a sublist of
the processed list (entries are kept in input order and never
reordered, duplicated, or invented). -/
theorem dedupAppend_fst_sublist (l : List Json) :
    ∀ A S, ∃ D, (dedupAppend A S l).1 = A ++ D ∧ D.Sublist l := by
  induction l with
  | nil => intro A S; exact ⟨[], by simp [dedupAppend], List.Sublist.refl []⟩
  | cons a rest ih =>
    intro A S
    by_cases ht : truthy (bundleId a) = true
    · by_cases hm : pyMem (bundleId a) S = true
      · obtain ⟨D, hD, hs⟩ := ih A S
        exact ⟨D, by simp [dedupAppend, ht, hm, hD], hs.cons a⟩
      · simp only [Bool.not_eq_true] at hm
        obtain ⟨D, hD, hs⟩ := ih (A ++ [a]) (S ++ [bundleId a])
        refine ⟨a :: D, ?_, hs.cons₂ a⟩
        rw [dedupAppend]
        simp only [ht, hm, if_true, if_false, Bool.false_eq_true]
        rw [hD, List.append_assoc]
        rfl
    · simp only [Bool.not_eq_true] at ht
      obtain ⟨D, hD, hs⟩ := ih (A ++ [a]) S
      refine ⟨a :: D, ?_, hs.cons₂ a⟩
      rw [dedupAppend]
      simp only [ht, Bool.false_eq_true, if_false]
      rw [hD, List.append_assoc]
      rfl

/-- Entries with falsy bundle identifiers are never deduplicated: the
falsy-identifier entries of the output are exactly the falsy-identifier
entries of the input, in order and multiplicity. -/
theorem dedupAppend_falsy_filter (l : List Json) :
    ∀ A S, (dedupAppend A S l).1.filter (fun a => !truthy (bundleId a)) =
      A.filter (fun a => !truthy (bundleId a)) ++ l.filter (fun a => !truthy (bundleId a)) := by
  induction l with
  | nil => intro A S; simp [dedupAppend]
  | cons a rest ih =>
    intro A S
    by_cases ht : truthy (bundleId a) = true
    · by_cases hm : pyMem (bundleId a) S = true
      · rw [dedupAppend]
        simp only [ht, hm, if_true]
        rw [ih A S]
        simp [List.filter_cons, ht]
      · simp only [Bool.not_eq_true] at hm
        rw [dedupAppend]
        simp only [ht, hm, if_true, if_false, Bool.false_eq_true]
        rw [ih (A ++ [a]) (S ++ [bundleId a])]
        simp [List.filter_append, List.filter_cons, ht]
    · simp only [Bool.not_eq_true] at ht
      rw [dedupAppend]
      simp only [ht, Bool.false_eq_true, if_false]
      rw [ih (A ++ [a]) S]
      simp [List.filter_append, List.filter_cons, ht]

/-- The dedup loop keeps at most one entry per (Python-equal) truthy
bundle identifier, provided the seen set covers the identifiers already
in `apps` and everything relevant is hashable. -/
theorem dedupAppend_pairwise (l : List Json) :
    ∀ A S,
      (∀ s ∈ S, hashable s = true) →
      (∀ x ∈ A, truthy (bundleId x) = true → hashable (bundleId x) = true) →
      (∀ a ∈ l, truthy (bundleId a) = true → hashable (bundleId a) = true) →
      (∀ x ∈ A, truthy (bundleId x) = true → pyMem (bundleId x) S = true) →
      A.Pairwise (fun x y => truthy (bundleId x) = true → truthy (bundleId y) = true →
        pyEq (bundleId x) (bundleId y) = false) →
      (dedupAppend A S l).1.Pairwise (fun x y => truthy (bundleId x) = true →
        truthy (bundleId y) = true → pyEq (bundleId x) (bundleId y) = false) := by
  induction l with
  | nil => intro A S _ _ _ _ hp; simpa [dedupAppend] using hp
  | cons a rest ih =>
    intro A S hS hA hl hinv hp
    by_cases ht : truthy (bundleId a) = true
    · have hha : hashable (bundleId a) = true := hl a (List.mem_cons_self a rest) ht
      by_cases hm : pyMem (bundleId a) S = true
      · rw [dedupAppend]
        simp only [ht, hm, if_true]
        exact ih A S hS hA (fun b hb => hl b (List.mem_cons_of_mem a hb)) hinv hp
      · simp only [Bool.not_eq_true] at hm
        rw [dedupAppend]
        simp only [ht, hm, if_true, if_false, Bool.false_eq_true]
        apply ih (A ++ [a]) (S ++ [bundleId a])
        · intro s hs
          rcases List.mem_append.mp hs with h' | h'
          · exact hS s h'
          · rw [List.mem_singleton.mp h']; exact hha
        · intro x hx htx
          rcases List.mem_append.mp hx with h' | h'
          · exact hA x h' htx
          · rw [List.mem_singleton.mp h']; exact hha
        · exact fun b hb => hl b (List.mem_cons_of_mem a hb)
        · intro x hx htx
          rcases List.mem_append.mp hx with h' | h'
          · rw [pyMem_append, pyMem_singleton]
            rw [hinv x h' htx]
            simp
          · rw [List.mem_singleton.mp h', pyMem_append, pyMem_singleton,
              pyEq_self_of_hashable _ hha]
            simp
        · rw [List.pairwise_append]
          refine ⟨hp, List.pairwise_singleton _ _, ?_⟩
          intro x hx y hy htx hty
          rw [List.mem_singleton.mp hy]
          have hmx := hinv x hx htx
          have hhx := hA x hx htx
          by_contra hne
          rw [Bool.not_eq_false] at hne
          obtain ⟨s, hs, hks⟩ := (pyMem_iff _ _ hhx hS).mp hmx
          have : pyMem (bundleId a) S = true := by
            apply (pyMem_iff _ _ hha hS).mpr
            refine ⟨s, hs, ?_⟩
            rw [hks]
            exact (pyEq_iff_normKey _ _ hhx hha).mp hne
          simp [this] at hm
    · simp only [Bool.not_eq_true] at ht
      rw [dedupAppend]
      simp only [ht, Bool.false_eq_true, if_false]
      apply ih (A ++ [a]) S hS
      · intro x hx htx
        rcases List.mem_append.mp hx with h' | h'
        · exact hA x h' htx
        · rw [List.mem_singleton.mp h'] at htx
          rw [htx] at ht
          cases ht
      · exact fun b hb => hl b (List.mem_cons_of_mem a hb)
      · intro x hx htx
        rcases List.mem_append.mp hx with h' | h'
        · exact hinv x h' htx
        · rw [List.mem_singleton.mp h'] at htx
          rw [htx] at ht
          cases ht
      · rw [List.pairwise_append]
        refine ⟨hp, List.pairwise_singleton _ _, ?_⟩
        intro x hx y hy htx hty
        rw [List.mem_singleton.mp hy] at hty
        rw [hty] at ht
        cases ht

/-- Every entry the dedup loop adds with a truthy identifier is the
first occurrence of that identifier: its identifier is not in the seen
set, and it occurs in the processed list at a position before which no
entry carries a Python-equal identifier. -/
theorem dedupAppend_firstOcc (l : List Json) :
    ∀ A S a,
      (∀ s ∈ S, hashable s = true) →
      (∀ b ∈ l, truthy (bundleId b) = true → hashable (bundleId b) = true) →
      a ∈ (dedupAppend A S l).1 →
      a ∈ A ∨ (truthy (bundleId a) = true →
        pyMem (bundleId a) S = false ∧
        ∃ pre post, l = pre ++ a :: post ∧
          ∀ b ∈ pre, pyEq (bundleId b) (bundleId a) = false) := by
  induction l with
  | nil =>
    intro A S a _ _ ha
    rw [dedupAppend] at ha
    exact Or.inl ha
  | cons c rest ih =>
    intro A S a hS hl ha
    by_cases ht : truthy (bundleId c) = true
    · have hhc : hashable (bundleId c) = true := hl c (List.mem_cons_self c rest) ht
      by_cases hm : pyMem (bundleId c) S = true
      · rw [dedupAppend] at ha
        simp only [ht, hm, if_true] at ha
        rcases ih A S a hS (fun b hb => hl b (List.mem_cons_of_mem c hb)) ha with h | h
        · exact Or.inl h
        · refine Or.inr fun hta => ?_
          obtain ⟨hmem, pre, post, hsplit, hpre⟩ := h hta
          have hha : hashable (bundleId a) = true := by
            apply hl a _ hta
            rw [hsplit]
            exact List.mem_cons_of_mem c (List.mem_append_right pre (List.mem_cons_self a post))
          refine ⟨hmem, c :: pre, post, by simp [hsplit], ?_⟩
          intro b hb
          rcases List.mem_cons.mp hb with rfl | hb'
          · by_contra hne
            rw [Bool.not_eq_false] at hne
            obtain ⟨s, hs, hks⟩ := (pyMem_iff _ _ hhc hS).mp hm
            have : pyMem (bundleId a) S = true := by
              apply (pyMem_iff _ _ hha hS).mpr
              refine ⟨s, hs, ?_⟩
              rw [hks]
              exact (pyEq_iff_normKey _ _ hhc hha).mp hne
            rw [this] at hmem
            cases hmem
          · exact hpre b hb'
      · simp only [Bool.not_eq_true] at hm
        rw [dedupAppend] at ha
        simp only [ht, hm, if_true, if_false, Bool.false_eq_true] at ha
        have hS' : ∀ s ∈ S ++ [bundleId c], hashable s = true := by
          intro s hs
          rcases List.mem_append.mp hs with h' | h'
          · exact hS s h'
          · rw [List.mem_singleton.mp h']; exact hhc
        rcases ih (A ++ [c]) (S ++ [bundleId c]) a hS'
            (fun b hb => hl b (List.mem_cons_of_mem c hb)) ha with h | h
        · rcases List.mem_append.mp h with h' | h'
          · exact Or.inl h'
          · rw [List.mem_singleton.mp h']
            refine Or.inr fun _ => ⟨hm, [], rest, rfl, by simp⟩
        · refine Or.inr fun hta => ?_
          obtain ⟨hmem, pre, post, hsplit, hpre⟩ := h hta
          have hha : hashable (bundleId a) = true := by
            apply hl a _ hta
            rw [hsplit]
            exact List.mem_cons_of_mem c (List.mem_append_right pre (List.mem_cons_self a post))
          rw [pyMem_append, pyMem_singleton, Bool.or_eq_false_iff] at hmem
          refine ⟨hmem.1, c :: pre, post, by simp [hsplit], ?_⟩
          intro b hb
          rcases List.mem_cons.mp hb with rfl | hb'
          · rw [pyEq_comm_of_hashable _ _ hhc hha]
            exact hmem.2
          · exact hpre b hb'
    · simp only [Bool.not_eq_true] at ht
      rw [dedupAppend] at ha
      simp only [ht, Bool.false_eq_true, if_false] at ha
      rcases ih (A ++ [c]) S a hS (fun b hb => hl b (List.mem_cons_of_mem c hb)) ha with h | h
      · rcases List.mem_append.mp h with h' | h'
        · exact Or.inl h'
        · rw [List.mem_singleton.mp h']
          refine Or.inr fun hta => absurd hta (by simp [ht])
      · refine Or.inr fun hta => ?_
        obtain ⟨hmem, pre, post, hsplit, hpre⟩ := h hta
        have hha : hashable (bundleId a) = true := by
          apply hl a _ hta
          rw [hsplit]
          exact List.mem_cons_of_mem c (List.mem_append_right pre (List.mem_cons_self a post))
        refine ⟨hmem, c :: pre, post, by simp [hsplit], ?_⟩
        intro b hb
        rcases List.mem_cons.mp hb with rfl | hb'
        · exact pyEq_false_of_truthy_ne _ _ hha (by simp [ht, hta])
        · exact hpre b hb'

/-- Key bookkeeping of the dedup loop: the canonical truthy identifiers
occurring among the output entries are those of the input entries not
already covered by the seen set, and the final seen set covers exactly
the initial seen set plus the input identifiers. -/
theorem dedupAppend_keys (l : List Json) :
    ∀ A S k,
      (∀ s ∈ S, hashable s = true) →
      (∀ b ∈ l, truthy (bundleId b) = true → hashable (bundleId b) = true) →
      ((k ∈ (dedupAppend A S l).1.filterMap appKey ↔
          k ∈ A.filterMap appKey ∨
            (k ∈ l.filterMap appKey ∧ k ∉ S.filterMap normKey)) ∧
       (k ∈ (dedupAppend A S l).2.filterMap normKey ↔
          k ∈ S.filterMap normKey ∨ k ∈ l.filterMap appKey)) := by
  induction l with
  | nil =>
    intro A S k _ _
    rw [dedupAppend]
    simp
  | cons c rest ih =>
    intro A S k hS hl
    by_cases ht : truthy (bundleId c) = true
    · have hhc : hashable (bundleId c) = true := hl c (List.mem_cons_self c rest) ht
      obtain ⟨κ, hκ⟩ := normKey_isSome_of_hashable _ hhc
      have hkc : appKey c = some κ := by simp [appKey, ht, hκ]
      have hmem_iff : pyMem (bundleId c) S = true ↔ κ ∈ S.filterMap normKey := by
        rw [pyMem_iff _ _ hhc hS]
        simp only [List.mem_filterMap]
        constructor
        · rintro ⟨s, hs, hk⟩; exact ⟨s, hs, by rw [hk, hκ]⟩
        · rintro ⟨s, hs, hk⟩; exact ⟨s, hs, by rw [hk, hκ]⟩
      by_cases hm : pyMem (bundleId c) S = true
      · have hκS : κ ∈ S.filterMap normKey := hmem_iff.mp hm
        rw [dedupAppend]
        simp only [ht, hm, if_true]
        obtain ⟨ih1, ih2⟩ := ih A S k hS (fun b hb => hl b (List.mem_cons_of_mem c hb))
        constructor
        · rw [ih1]
          simp only [List.filterMap_cons, hkc, List.mem_cons]
          constructor
          · rintro (h | ⟨h1, h2⟩)
            · exact Or.inl h
            · exact Or.inr ⟨Or.inr h1, h2⟩
          · rintro (h | ⟨h1 | h1, h2⟩)
            · exact Or.inl h
            · exact absurd hκS (h1 ▸ h2)
            · exact Or.inr ⟨h1, h2⟩
        · rw [ih2]
          simp only [List.filterMap_cons, hkc, List.mem_cons]
          constructor
          · rintro (h | h)
            · exact Or.inl h
            · exact Or.inr (Or.inr h)
          · rintro (h | h | h)
            · exact Or.inl h
            · exact Or.inl (h ▸ hκS)
            · exact Or.inr h
      · have hκS : κ ∉ S.filterMap normKey := fun hc => hm (hmem_iff.mpr hc)
        rw [dedupAppend]
        simp only [ht, hm, if_true, if_false, Bool.false_eq_true]
        have hS' : ∀ s ∈ S ++ [bundleId c], hashable s = true := by
          intro s hs
          rcases List.mem_append.mp hs with h' | h'
          · exact hS s h'
          · rw [List.mem_singleton.mp h']; exact hhc
        obtain ⟨ih1, ih2⟩ := ih (A ++ [c]) (S ++ [bundleId c]) k hS'
          (fun b hb => hl b (List.mem_cons_of_mem c hb))
        have happ : (A ++ [c]).filterMap appKey = A.filterMap appKey ++ [κ] := by
          simp [List.filterMap_append, hkc]
        have hsee : (S ++ [bundleId c]).filterMap normKey = S.filterMap normKey ++ [κ] := by
          simp [List.filterMap_append, hκ]
        constructor
        · rw [ih1, happ, hsee]
          simp only [List.filterMap_cons, hkc, List.mem_cons, List.mem_append,
            List.mem_singleton, List.not_mem_nil, or_false]
          constructor
          · rintro (h | ⟨h1, h2⟩)
            · rcases h with h | h
              · exact Or.inl h
              · exact Or.inr ⟨Or.inl h, h ▸ hκS⟩
            · push_neg at h2
              exact Or.inr ⟨Or.inr h1, h2.1⟩
          · rintro (h | ⟨h1 | h1, h2⟩)
            · exact Or.inl (Or.inl h)
            · exact Or.inl (Or.inr h1)
            · by_cases hkκ : k = κ
              · exact Or.inl (Or.inr hkκ)
              · exact Or.inr ⟨h1, by simp [h2, hkκ]⟩
        · rw [ih2, hsee]
          simp only [List.filterMap_cons, hkc, List.mem_cons, List.mem_append,
            List.mem_singleton, List.not_mem_nil, or_false]
          tauto
    · simp only [Bool.not_eq_true] at ht
      have hkc : appKey c = none := by simp [appKey, ht]
      rw [dedupAppend]
      simp only [ht, Bool.false_eq_true, if_false]
      obtain ⟨ih1, ih2⟩ := ih (A ++ [c]) S k hS
        (fun b hb => hl b (List.mem_cons_of_mem c hb))
      have happ : (A ++ [c]).filterMap appKey = A.filterMap appKey := by
        simp [List.filterMap_append, hkc]
      constructor
      · rw [ih1, happ]
        simp [List.filterMap_cons, hkc]
      · rw [ih2]
        simp [List.filterMap_cons, hkc]

/-- When the processed list carries no duplicate truthy identifier and
none of its identifiers is already seen, the dedup loop appends it
unchanged. -/
theorem dedupAppend_of_nodup (l : List Json) :
    ∀ A S,
      (∀ b ∈ l, truthy (bundleId b) = true → hashable (bundleId b) = true) →
      (∀ s ∈ S, hashable s = true) →
      (∀ b ∈ l, truthy (bundleId b) = true → pyMem (bundleId b) S = false) →
      (l.filterMap appKey).Nodup →
      (dedupAppend A S l).1 = A ++ l := by
  induction l with
  | nil => intro A S _ _ _ _; simp [dedupAppend]
  | cons c rest ih =>
    intro A S hl hS hfresh hnd
    by_cases ht : truthy (bundleId c) = true
    · have hhc : hashable (bundleId c) = true := hl c (List.mem_cons_self c rest) ht
      obtain ⟨κ, hκ⟩ := normKey_isSome_of_hashable _ hhc
      have hkc : appKey c = some κ := by simp [appKey, ht, hκ]
      have hm : pyMem (bundleId c) S = false := hfresh c (List.mem_cons_self c rest) ht
      rw [dedupAppend]
      simp only [ht, hm, if_true, if_false, Bool.false_eq_true]
      have hnd' : (rest.filterMap appKey).Nodup ∧ κ ∉ rest.filterMap appKey := by
        rw [List.filterMap_cons, hkc] at hnd
        exact ⟨hnd.of_cons, by simpa using (List.nodup_cons.mp hnd).1⟩
      rw [ih (A ++ [c]) (S ++ [bundleId c])
        (fun b hb => hl b (List.mem_cons_of_mem c hb))
        (by
          intro s hs
          rcases List.mem_append.mp hs with h' | h'
          · exact hS s h'
          · rw [List.mem_singleton.mp h']; exact hhc)
        (by
          intro b hb htb
          have hhb : hashable (bundleId b) = true := hl b (List.mem_cons_of_mem c hb) htb
          obtain ⟨κb, hκb⟩ := normKey_isSome_of_hashable _ hhb
          rw [pyMem_append, pyMem_singleton, Bool.or_eq_false_iff]
          refine ⟨hfresh b (List.mem_cons_of_mem c hb) htb, ?_⟩
          by_contra hne
          rw [Bool.not_eq_false] at hne
          have : κb = κ := by
            have := (pyEq_iff_normKey _ _ hhb hhc).mp hne
            rw [hκb, hκ] at this
            exact Option.some_injective _ this
          apply hnd'.2
          rw [← this]
          exact List.mem_filterMap.mpr ⟨b, hb, by simp [appKey, htb, hκb]⟩)
        hnd'.1]
      simp
    · simp only [Bool.not_eq_true] at ht
      have hkc : appKey c = none := by simp [appKey, ht]
      rw [dedupAppend]
      simp only [ht, Bool.false_eq_true, if_false]
      rw [ih (A ++ [c]) S
        (fun b hb => hl b (List.mem_cons_of_mem c hb)) hS
        (fun b hb => hfresh b (List.mem_cons_of_mem c hb))
        (by rwa [List.filterMap_cons, hkc] at hnd)]
      simp

/-- The news loop only ever appends: the result extends the
accumulated list by a sublist of the processed items (first-seen
order). -/
theorem foldl_stepNews_sublist (l : List Json) :
    ∀ N, ∃ D, l.foldl stepNews N = N ++ D ∧ D.Sublist l := by
  induction l with
  | nil => intro N; exact ⟨[], by simp, List.Sublist.refl []⟩
  | cons n rest ih =>
    intro N
    rw [List.foldl_cons]
    by_cases hm : pyMem n N = true
    · obtain ⟨D, hD, hs⟩ := ih N
      refine ⟨D, ?_, hs.cons n⟩
      rw [stepNews, if_pos hm]
      exact hD
    · obtain ⟨D, hD, hs⟩ := ih (N ++ [n])
      refine ⟨n :: D, ?_, hs.cons₂ n⟩
      rw [stepNews, if_neg hm]
      rw [hD, List.append_assoc]
      rfl

/-- The news loop preserves pairwise Python-distinctness: no item is
appended while a Python-equal item is already present. -/
theorem foldl_stepNews_pairwise (l : List Json) :
    ∀ N, N.Pairwise (fun x y => pyEq y x = false) →
      (l.foldl stepNews N).Pairwise (fun x y => pyEq y x = false) := by
  induction l with
  | nil => intro N h; simpa using h
  | cons n rest ih =>
    intro N h
    rw [List.foldl_cons]
    apply ih
    rw [stepNews]
    by_cases hm : pyMem n N = true
    · rw [if_pos hm]; exact h
    · rw [if_neg hm]
      rw [List.pairwise_append]
      refine ⟨h, List.pairwise_singleton _ _, ?_⟩
      intro x hx y hy
      rw [List.mem_singleton.mp hy]
      simp only [pyMem, List.any_eq_true, Bool.not_eq_true] at hm
      push_neg at hm
      have := hm x hx
      simpa using this

/-- When the processed items are pairwise Python-distinct and none is
already present, the news loop appends them all unchanged. -/
theorem foldl_stepNews_of_distinct (l : List Json) :
    ∀ N, (∀ n ∈ l, pyMem n N = false) →
      l.Pairwise (fun x y => pyEq y x = false) →
      l.foldl stepNews N = N ++ l := by
  induction l with
  | nil => intro N _ _; simp
  | cons n rest ih =>
    intro N hfresh hp
    rw [List.foldl_cons, stepNews,
      if_neg (by rw [hfresh n (List.mem_cons_self n rest)]; simp)]
    rw [ih (N ++ [n]) ?_ hp.of_cons]
    · rw [List.append_assoc]; rfl
    · intro b hb
      rw [pyMem_append, pyMem_singleton, Bool.or_eq_false_iff]
      refine ⟨hfresh b (List.mem_cons_of_mem n hb), ?_⟩
      exact (List.pairwise_cons.mp hp).1 b hb

/-- Python equality on strings is string equality. -/
theorem pyEq_str (a b : String) : pyEq (.str a) (.str b) = (a == b) := by
  simp [pyEq, normKey]

/-- Unfolding lemma for association-list lookup at a cons cell. -/
theorem lookup_cons_eq_ite (k k0 : String) (v0 : Json) (rest : List (String × Json)) :
    List.lookup k ((k0, v0) :: rest) = if k = k0 then some v0 else List.lookup k rest := by
  by_cases h : k = k0
  · simp [List.lookup, h]
  · simp [List.lookup, h, beq_eq_false_iff_ne.mpr h]

/-- Association-list lookup distributes over append. -/
theorem lookup_append_or (d e : List (String × Json)) (k : String) :
    (d ++ e).lookup k = ((d.lookup k).or (e.lookup k)) := by
  induction d with
  | nil => simp
  | cons kv rest ih =>
    rcases kv with ⟨k0, v0⟩
    rw [List.cons_append, lookup_cons_eq_ite, lookup_cons_eq_ite]
    by_cases h : k = k0
    · simp [h]
    · simp only [if_neg h]
      exact ih

/-- Overwriting a present key: lookup of that key yields the new value. -/
theorem lookup_map_set (d : List (String × Json)) (k : String) (v : Json) :
    (d.lookup k).isSome = true →
    ((d.map (fun kv => if kv.1 = k then (k, v) else kv)).lookup k) = some v := by
  induction d with
  | nil => simp
  | cons kv rest ih =>
    rcases kv with ⟨k0, v0⟩
    intro hsome
    rw [List.map_cons]
    by_cases h : k0 = k
    · have : (if (k0, v0).1 = k then (k, v) else (k0, v0)) = (k, v) := by
        simp [h]
      rw [this, lookup_cons_eq_ite, if_pos rfl]
    · have : (if (k0, v0).1 = k then (k, v) else (k0, v0)) = (k0, v0) := by
        simp [h]
      rw [this, lookup_cons_eq_ite, if_neg (fun hc => h hc.symm)]
      rw [lookup_cons_eq_ite, if_neg (fun hc => h hc.symm)] at hsome
      exact ih hsome

/-- Overwriting a key leaves lookups of other keys unchanged. -/
theorem lookup_map_set_ne (d : List (String × Json)) (k k' : String) (v : Json)
    (h : k' ≠ k) :
    ((d.map (fun kv => if kv.1 = k then (k, v) else kv)).lookup k') = d.lookup k' := by
  induction d with
  | nil => simp
  | cons kv rest ih =>
    rcases kv with ⟨k0, v0⟩
    rw [List.map_cons]
    by_cases h0 : k0 = k
    · have : (if (k0, v0).1 = k then (k, v) else (k0, v0)) = (k, v) := by
        simp [h0]
      rw [this, lookup_cons_eq_ite, if_neg h, lookup_cons_eq_ite,
        if_neg (by rw [h0]; exact h)]
      exact ih
    · have : (if (k0, v0).1 = k then (k, v) else (k0, v0)) = (k0, v0) := by
        simp [h0]
      rw [this, lookup_cons_eq_ite, lookup_cons_eq_ite]
      by_cases hk : k' = k0
      · simp [hk]
      · simp only [if_neg hk]
        exact ih

/-- `dictSet` then lookup of the same key yields the stored value. -/
theorem lookup_dictSet_self (d : List (String × Json)) (k : String) (v : Json) :
    (dictSet d k v).lookup k = some v := by
  unfold dictSet
  by_cases h : (d.lookup k).isSome = true
  · rw [if_pos h]
    exact lookup_map_set d k v h
  · rw [if_neg h, lookup_append_or]
    rw [Option.not_isSome_iff_eq_none] at h
    rw [h, lookup_cons_eq_ite, if_pos rfl]
    rfl

/-- `dictSet` leaves lookups of other keys unchanged. -/
theorem lookup_dictSet_ne (d : List (String × Json)) (k k' : String) (v : Json)
    (h : k' ≠ k) : (dictSet d k v).lookup k' = d.lookup k' := by
  unfold dictSet
  by_cases hs : (d.lookup k).isSome = true
  · rw [if_pos hs]
    exact lookup_map_set_ne d k k' v h
  · rw [if_neg hs, lookup_append_or, lookup_cons_eq_ite, if_neg h]
    simp [List.lookup]

/-- A key outside the copied key list is untouched by the copy fold. -/
theorem foldl_copy_lookup_notmem (keys : List String) (first : Manifest) (k : String)
    (hk : k ∉ keys) :
    ∀ d : List (String × Json),
      ((keys.foldl (fun acc key =>
          match first.lookup key with
          | some v => dictSet acc key v
          | none => acc) d).lookup k) = d.lookup k := by
  induction keys with
  | nil => intro d; rfl
  | cons key0 rest ih =>
    intro d
    rw [List.foldl_cons]
    have hk0 : k ≠ key0 := fun h => hk (h ▸ List.mem_cons_self key0 rest)
    have hrest : k ∉ rest := fun h => hk (List.mem_cons_of_mem key0 h)
    rw [ih hrest]
    cases first.lookup key0 with
    | none => rfl
    | some v => exact lookup_dictSet_ne d key0 k v hk0

/-- A key inside a duplicate-free copied key list ends up bound to the
first manifest's value when present there, and untouched otherwise. -/
theorem foldl_copy_lookup_mem (keys : List String) (first : Manifest) (k : String)
    (hk : k ∈ keys) (hnd : keys.Nodup) :
    ∀ d : List (String × Json),
      ((keys.foldl (fun acc key =>
          match first.lookup key with
          | some v => dictSet acc key v
          | none => acc) d).lookup k) =
        (match first.lookup k with
         | some v => some v
         | none => d.lookup k) := by
  induction keys with
  | nil => cases hk
  | cons key0 rest ih =>
    intro d
    rw [List.foldl_cons]
    rcases List.mem_cons.mp hk with rfl | hmem
    · have hrest : k ∉ rest := (List.nodup_cons.mp hnd).1
      rw [foldl_copy_lookup_notmem rest first k hrest]
      cases h0 : first.lookup k with
      | none => rfl
      | some v => exact lookup_dictSet_self d k v
    · rw [ih hmem (List.nodup_cons.mp hnd).2]
      cases h0 : first.lookup key0 with
      | none => rfl
      | some v =>
        have hne : k ≠ key0 := by
          rintro rfl
          exact (List.nodup_cons.mp hnd).1 hmem
        cases h1 : first.lookup k with
        | none => exact lookup_dictSet_ne d key0 k v hne
        | some w => rfl

/-- The seven metadata keys are pairwise distinct. -/
theorem metadataKeys_nodup : metadataKeys.Nodup := by decide

/-- `stepApp` can only raise `TypeError` or `AttributeError`. -/
theorem stepApp_error (acc : List Json × List Json) (a : Json) (e : PyError)
    (h : stepApp acc a = .error e) : e = .typeError ∨ e = .attributeError := by
  cases a <;> simp only [stepApp] at h
  case obj kvs =>
    by_cases ht : truthy ((kvs.lookup "bundleIdentifier").getD (.str "")) = true
    · by_cases hh : hashable ((kvs.lookup "bundleIdentifier").getD (.str "")) = true
      · simp only [ht, hh, if_true] at h
        by_cases hm : pyMem ((kvs.lookup "bundleIdentifier").getD (.str "")) acc.2 = true <;>
          simp [hm] at h
      · simp only [ht, if_true] at h
        rw [if_neg hh] at h
        cases h
        exact Or.inl rfl
    · rw [if_neg ht] at h
      cases h
  all_goals
    cases h
    exact Or.inr rfl

/-- The app-loop fold can only raise `TypeError` or `AttributeError`. -/
theorem foldlM_stepApp_error (l : List Json) :
    ∀ acc e, l.foldlM stepApp acc = .error e → e = .typeError ∨ e = .attributeError := by
  induction l with
  | nil =>
    intro acc e h
    simp [List.foldlM_nil, Pure.pure, Except.pure] at h
  | cons a rest ih =>
    intro acc e h
    simp only [List.foldlM_cons] at h
    cases hs : stepApp acc a with
    | error e' =>
      rw [hs] at h
      have : e' = e := by
        simpa [Bind.bind, Except.bind] using h
      exact this ▸ stepApp_error acc a e' hs
    | ok acc' =>
      rw [hs] at h
      simp only [Bind.bind, Except.bind] at h
      exact ih acc' e h

/-- `pyIter` can only raise `TypeError`. -/
theorem pyIter_error (v : Json) (e : PyError) (h : pyIter v = .error e) :
    e = .typeError := by
  cases v <;> simp [pyIter] at h <;> exact h.symm

/-- `appsOf` can only raise `TypeError`. -/
theorem appsOf_error (m : Manifest) (e : PyError) (h : appsOf m = .error e) :
    e = .typeError := by
  unfold appsOf at h
  cases hv : m.lookup "apps" with
  | none => rw [hv] at h; cases h
  | some v => rw [hv] at h; exact pyIter_error v e h

/-- `newsOf` can only raise `TypeError`. -/
theorem newsOf_error (m : Manifest) (e : PyError) (h : newsOf m = .error e) :
    e = .typeError := by
  unfold newsOf at h
  cases hv : m.lookup "news" with
  | none => rw [hv] at h; cases h
  | some v => rw [hv] at h; exact pyIter_error v e h

/-- `processManifest` can only raise `TypeError` or `AttributeError`
(never `ValueError`). -/
theorem processManifest_error (acc : MergeAcc) (m : Manifest) (e : PyError)
    (h : processManifest acc m = .error e) :
    e = .typeError ∨ e = .attributeError := by
  unfold processManifest at h
  cases ha : appsOf m with
  | error e' =>
    rw [ha] at h
    simp only [Bind.bind, Except.bind] at h
    cases h
    exact Or.inl (appsOf_error m e ha)
  | ok as =>
    rw [ha] at h
    simp only [Bind.bind, Except.bind] at h
    cases hf : as.foldlM stepApp (acc.apps, acc.seen_apps) with
    | error e' =>
      rw [hf] at h
      cases h
      exact foldlM_stepApp_error as _ e hf
    | ok pair =>
      rw [hf] at h
      cases hn : newsOf m with
      | error e' =>
        rw [hn] at h
        cases h
        exact Or.inl (newsOf_error m e hn)
      | ok ns =>
        rw [hn] at h
        cases h

/-- The manifest fold can only raise `TypeError` or `AttributeError`. -/
theorem foldlM_processManifest_error (ms : List Manifest) :
    ∀ acc e, ms.foldlM processManifest acc = .error e →
      e = .typeError ∨ e = .attributeError := by
  induction ms with
  | nil =>
    intro acc e h
    simp [List.foldlM_nil, Pure.pure, Except.pure] at h
  | cons m ms ih =>
    intro acc e h
    simp only [List.foldlM_cons] at h
    cases hs : processManifest acc m with
    | error e' =>
      rw [hs] at h
      have : e' = e := by simpa [Bind.bind, Except.bind] using h
      exact this ▸ processManifest_error acc m e' hs
    | ok acc' =>
      rw [hs] at h
      simp only [Bind.bind, Except.bind] at h
      exact ih acc' e h

/-- Membership facts for the four fixed result keys. -/
theorem fixed_keys_not_metadata :
    "name" ∉ metadataKeys ∧ "identifier" ∉ metadataKeys ∧
    "apps" ∉ metadataKeys ∧ "news" ∉ metadataKeys := by decide

/-- Workhorse: everything a successful merge determines.  The result
dict is the metadata-copied base dict; its `apps` field is the dedup
loop over the concatenation of all input app sequences, its `news`
field the news loop over the concatenation of all news sequences, and
its `name`/`identifier` fields are fixed. -/
theorem merge_ok_spec (manifests : List Manifest) (output_name : String)
    (merged : List (String × Json))
    (h : merge_manifests manifests output_name = .ok merged) :
    ∃ first rest allA allN,
      manifests = first :: rest ∧
      collectApps manifests = .ok allA ∧
      collectNews manifests = .ok allN ∧
      (∀ a ∈ allA, truthy (bundleId a) = true → hashable (bundleId a) = true) ∧
      merged = copyMetadata first
        [("name", .str output_name),
         ("identifier", .str "com.octonezd.merged-repo"),
         ("iconURL", .str defaultIconURL),
         ("apps", .arr (dedupAppend [] [] allA).1),
         ("news", .arr (allN.foldl stepNews []))] ∧
      merged.lookup "apps" = some (.arr (dedupAppend [] [] allA).1) ∧
      merged.lookup "news" = some (.arr (allN.foldl stepNews [])) ∧
      merged.lookup "name" = some (.str output_name) ∧
      merged.lookup "identifier" = some (.str "com.octonezd.merged-repo") := by
  obtain ⟨first, rest, acc, hms, hfold, hm⟩ := merge_manifests_ok manifests output_name merged h
  obtain ⟨allA, allN, hca, hcn, hda, hfn, hhash⟩ :=
    foldlM_processManifest_ok manifests ⟨[], [], []⟩ acc hfold
  have happs : acc.apps = (dedupAppend [] [] allA).1 := congrArg Prod.fst hda
  have hnews : acc.news = allN.foldl stepNews [] := hfn
  refine ⟨first, rest, allA, allN, hms, hca, hcn, hhash, ?_, ?_, ?_, ?_, ?_⟩
  · rw [hm, happs, hnews]
  all_goals
    rw [hm, happs, hnews]
    unfold copyMetadata
  · rw [foldl_copy_lookup_notmem metadataKeys first "apps" fixed_keys_not_metadata.2.2.1]
    rfl
  · rw [foldl_copy_lookup_notmem metadataKeys first "news" fixed_keys_not_metadata.2.2.2]
    rfl
  · rw [foldl_copy_lookup_notmem metadataKeys first "name" fixed_keys_not_metadata.1]
    rfl
  · rw [foldl_copy_lookup_notmem metadataKeys first "identifier" fixed_keys_not_metadata.2.1]
    rfl

/-- **C1** (invariants): for every non-empty input list of manifests
that merges successfully, the merged `apps` sequence (i) contains at
most one entry per truthy (non-empty) bundle identifier, (ii) keeps
entries in first-seen order across the input list in input order (it
is a sublist of the concatenated inputs), (iii) places each identified
entry at the first occurrence of its identifier, and (iv) never
deduplicates entries whose bundle identifier is empty or missing: the
falsy-identifier entries of the output are exactly those of the input,
with multiplicity, so both copies of an identifier-less app appearing
in two input manifests are present in the output even if otherwise
identical. -/
theorem C1_merged_apps_dedup_invariant
    (manifests : List Manifest) (output_name : String)
    (merged : List (String × Json)) (allApps A : List Json)
    (hne : manifests ≠ [])
    (hok : merge_manifests manifests output_name = .ok merged)
    (hall : collectApps manifests = .ok allApps)
    (happs : merged.lookup "apps" = some (.arr A)) :
    A.Pairwise (fun x y => truthy (bundleId x) = true → truthy (bundleId y) = true →
      pyEq (bundleId x) (bundleId y) = false) ∧
    A.Sublist allApps ∧
    (∀ a ∈ A, truthy (bundleId a) = true →
      ∃ pre post, allApps = pre ++ a :: post ∧
        ∀ b ∈ pre, pyEq (bundleId b) (bundleId a) = false) ∧
    A.filter (fun a => !truthy (bundleId a)) =
      allApps.filter (fun a => !truthy (bundleId a)) := by
  obtain ⟨first, rest, allA, allN, hms, hca, hcn, hhash, hmeq, ha, hn, _, _⟩ :=
    merge_ok_spec manifests output_name merged hok
  have hAA : allA = allApps := by
    have := hca.symm.trans hall
    exact Except.ok.inj this
  subst hAA
  have hA : A = (dedupAppend [] [] allA).1 := by
    have := ha.symm.trans happs
    exact (Json.arr.inj (Option.some.inj this)).symm
  subst hA
  refine ⟨?_, ?_, ?_, ?_⟩
  · exact dedupAppend_pairwise allA [] []
      (fun s hs => absurd hs (List.not_mem_nil s))
      (fun x hx => absurd hx (List.not_mem_nil x))
      hhash
      (fun x hx => absurd hx (List.not_mem_nil x))
      List.Pairwise.nil
  · obtain ⟨D, hD, hs⟩ := dedupAppend_fst_sublist allA [] []
    rw [hD, List.nil_append]
    exact hs
  · intro a haA hta
    rcases dedupAppend_firstOcc allA [] [] a
        (fun s hs => absurd hs (List.not_mem_nil s)) hhash haA with h | h
    · exact absurd h (List.not_mem_nil a)
    · obtain ⟨_, pre, post, hsplit, hpre⟩ := h hta
      exact ⟨pre, post, hsplit, hpre⟩
  · have := dedupAppend_falsy_filter allA [] []
    simpa using this

/-- Witness for C1: a single manifest holding two apps with the same
identifier `"x"` and one identifier-less app; the merge keeps the
first `"x"` entry and the identifier-less entry. -/
theorem C1_witness :
    ([.obj [("bundleIdentifier", .str "x")], .obj [("name", .str "anon")]] :
        List Json).Pairwise
      (fun x y => truthy (bundleId x) = true → truthy (bundleId y) = true →
        pyEq (bundleId x) (bundleId y) = false) ∧
    List.Sublist
      ([.obj [("bundleIdentifier", .str "x")], .obj [("name", .str "anon")]] : List Json)
      ([.obj [("bundleIdentifier", .str "x")],
        .obj [("bundleIdentifier", .str "x"), ("v", .num 2)],
        .obj [("name", .str "anon")]] : List Json) ∧
    (∀ a ∈ ([.obj [("bundleIdentifier", .str "x")], .obj [("name", .str "anon")]] :
        List Json), truthy (bundleId a) = true →
      ∃ pre post,
        ([.obj [("bundleIdentifier", .str "x")],
          .obj [("bundleIdentifier", .str "x"), ("v", .num 2)],
          .obj [("name", .str "anon")]] : List Json) = pre ++ a :: post ∧
        ∀ b ∈ pre, pyEq (bundleId b) (bundleId a) = false) ∧
    List.filter (fun a => !truthy (bundleId a))
      ([.obj [("bundleIdentifier", .str "x")], .obj [("name", .str "anon")]] : List Json) =
    List.filter (fun a => !truthy (bundleId a))
      ([.obj [("bundleIdentifier", .str "x")],
        .obj [("bundleIdentifier", .str "x"), ("v", .num 2)],
        .obj [("name", .str "anon")]] : List Json) :=
  C1_merged_apps_dedup_invariant
    [[("apps", .arr [.obj [("bundleIdentifier", .str "x")],
       .obj [("bundleIdentifier", .str "x"), ("v", .num 2)],
       .obj [("name", .str "anon")]])]]
    "R"
    [("name", .str "R"), ("identifier", .str "com.octonezd.merged-repo"),
     ("iconURL", .str defaultIconURL),
     ("apps", .arr [.obj [("bundleIdentifier", .str "x")], .obj [("name", .str "anon")]]),
     ("news", .arr [])]
    [.obj [("bundleIdentifier", .str "x")],
     .obj [("bundleIdentifier", .str "x"), ("v", .num 2)],
     .obj [("name", .str "anon")]]
    [.obj [("bundleIdentifier", .str "x")], .obj [("name", .str "anon")]]
    (by simp)
    (by simp [merge_manifests, processManifest, appsOf, newsOf, pyIter, stepApp,
      stepNews, pyMem, pyEq_str, truthy, hashable, copyMetadata, metadataKeys, dictSet,
      List.lookup, List.foldlM, Bind.bind, Except.bind, Pure.pure, Except.pure])
    (by rfl)
    (by rfl)

/-- **C2** (functional correctness): dedup is first-occurrence-wins.
Concretely, merging manifest A with apps
`[{"bundleIdentifier":"x","v":1}]` and manifest B with apps
`[{"bundleIdentifier":"x","v":2},{"bundleIdentifier":"y","v":1}]`
yields apps `[{"bundleIdentifier":"x","v":1},{"bundleIdentifier":"y","v":1}]`;
in general, an app whose truthy (hashable — as every recorded
identifier is) bundle identifier is already in the seen set is
silently discarded — the loop state is returned unchanged — regardless
of the app's other content. -/
theorem C2_first_occurrence_wins :
    ((merge_manifests
        [[("apps", .arr [.obj [("bundleIdentifier", .str "x"), ("v", .num 1)]])],
         [("apps", .arr [.obj [("bundleIdentifier", .str "x"), ("v", .num 2)],
                         .obj [("bundleIdentifier", .str "y"), ("v", .num 1)]])]]
        "Repository").map (fun d => d.lookup "apps") =
      .ok (some (.arr [.obj [("bundleIdentifier", .str "x"), ("v", .num 1)],
                       .obj [("bundleIdentifier", .str "y"), ("v", .num 1)]]))) ∧
    (∀ (A S : List Json) (kvs : List (String × Json)),
      truthy ((kvs.lookup "bundleIdentifier").getD (.str "")) = true →
      hashable ((kvs.lookup "bundleIdentifier").getD (.str "")) = true →
      pyMem ((kvs.lookup "bundleIdentifier").getD (.str "")) S = true →
      stepApp (A, S) (.obj kvs) = .ok (A, S)) := by
  constructor
  · simp [merge_manifests, processManifest, appsOf, newsOf, pyIter, stepApp,
      stepNews, pyMem, pyEq_str, truthy, hashable, copyMetadata, metadataKeys, dictSet,
      List.lookup, List.foldlM, Bind.bind, Except.bind, Pure.pure, Except.pure,
      Except.map]
  · intro A S kvs ht hh hm
    simp [stepApp, ht, hh, hm]

/-- Witness for C2's general discard clause. -/
theorem C2_witness :
    stepApp ([], [.str "x"]) (.obj [("bundleIdentifier", .str "x")]) =
      .ok ([], [.str "x"]) :=
  C2_first_occurrence_wins.2 [] [.str "x"] [("bundleIdentifier", .str "x")]
    (by rfl) (by rfl) (by simp [pyMem, pyEq, normKey, List.lookup])

/-- **C3** (functional correctness): for every successfully merged
input, the number of distinct truthy (non-empty) canonical bundle
identifiers in the output `apps` equals the number of distinct truthy
canonical bundle identifiers across all input manifests' apps
combined. -/
theorem C3_distinct_id_count
    (manifests : List Manifest) (output_name : String)
    (merged : List (String × Json)) (allApps A : List Json)
    (hok : merge_manifests manifests output_name = .ok merged)
    (hall : collectApps manifests = .ok allApps)
    (happs : merged.lookup "apps" = some (.arr A)) :
    ((A.filterMap appKey).toFinset).card = ((allApps.filterMap appKey).toFinset).card := by
  obtain ⟨first, rest, allA, allN, hms, hca, hcn, hhash, hmeq, ha, hn, _, _⟩ :=
    merge_ok_spec manifests output_name merged hok
  have hAA : allA = allApps := Except.ok.inj (hca.symm.trans hall)
  subst hAA
  have hA : A = (dedupAppend [] [] allA).1 := by
    have := ha.symm.trans happs
    exact (Json.arr.inj (Option.some.inj this)).symm
  subst hA
  have hset : ((dedupAppend [] [] allA).1.filterMap appKey).toFinset =
      (allA.filterMap appKey).toFinset := by
    apply Finset.ext
    intro k
    rw [List.mem_toFinset, List.mem_toFinset]
    obtain ⟨h1, _⟩ := dedupAppend_keys allA [] [] k
      (fun s hs => absurd hs (List.not_mem_nil s)) hhash
    rw [h1]
    simp
  rw [hset]

/-- Witness for C3: two manifests sharing the identifier `"x"`. -/
theorem C3_witness :
    ((([.obj [("bundleIdentifier", .str "x")],
        .obj [("bundleIdentifier", .str "y"), ("v", .num 1)]] : List Json).filterMap
          appKey).toFinset).card =
    ((([.obj [("bundleIdentifier", .str "x")],
        .obj [("bundleIdentifier", .str "x"), ("v", .num 2)],
        .obj [("bundleIdentifier", .str "y"), ("v", .num 1)]] : List Json).filterMap
          appKey).toFinset).card :=
  C3_distinct_id_count
    [[("apps", .arr [.obj [("bundleIdentifier", .str "x")]])],
     [("apps", .arr [.obj [("bundleIdentifier", .str "x"), ("v", .num 2)],
                     .obj [("bundleIdentifier", .str "y"), ("v", .num 1)]])]]
    "R"
    [("name", .str "R"), ("identifier", .str "com.octonezd.merged-repo"),
     ("iconURL", .str defaultIconURL),
     ("apps", .arr [.obj [("bundleIdentifier", .str "x")],
       .obj [("bundleIdentifier", .str "y"), ("v", .num 1)]]),
     ("news", .arr [])]
    [.obj [("bundleIdentifier", .str "x")],
     .obj [("bundleIdentifier", .str "x"), ("v", .num 2)],
     .obj [("bundleIdentifier", .str "y"), ("v", .num 1)]]
    [.obj [("bundleIdentifier", .str "x")],
     .obj [("bundleIdentifier", .str "y"), ("v", .num 1)]]
    (by simp [merge_manifests, processManifest, appsOf, newsOf, pyIter, stepApp,
      stepNews, pyMem, pyEq_str, truthy, hashable, copyMetadata, metadataKeys, dictSet,
      List.lookup, List.foldlM, Bind.bind, Except.bind, Pure.pure, Except.pure])
    (by rfl)
    (by rfl)

/-- **C4** (error handling): merging an empty manifest list raises
`ValueError` (the code's `EmptyInputError`) and produces no output;
merging any non-empty list never raises `ValueError`. -/
theorem C4_empty_input (output_name : String) :
    merge_manifests [] output_name = .error .valueError ∧
    ∀ manifests : List Manifest, manifests ≠ [] →
      merge_manifests manifests output_name ≠ .error .valueError := by
  refine ⟨rfl, ?_⟩
  intro ms hne hcontra
  match ms, hne with
  | m :: rest, _ =>
    unfold merge_manifests at hcontra
    cases hf : (m :: rest).foldlM processManifest ⟨[], [], []⟩ with
    | error e =>
      rw [hf] at hcontra
      have he : e = .valueError := by
        simpa [Bind.bind, Except.bind] using hcontra
      rcases foldlM_processManifest_error (m :: rest) ⟨[], [], []⟩ e hf with h | h <;>
        rw [he] at h <;> cases h
    | ok acc =>
      rw [hf] at hcontra
      simp [Bind.bind, Except.bind, Pure.pure, Except.pure] at hcontra

/-- Witness for C4's non-empty clause: a single empty manifest. -/
theorem C4_witness :
    merge_manifests [[]] "Repository" ≠ .error .valueError :=
  (C4_empty_input "Repository").2 [[]] (by simp)

/-- **C5** (functional correctness): a news item is appended only if no
Python-equal item (the code's deep structural equality: dict
key-order-independent, array order-sensitive) is already in the
accumulated news, so the merged news holds only pairwise-distinct items
in first-seen order; and merging two manifests that both carry the news
item `{"title":"hello"}` yields exactly one copy of it. -/
theorem C5_news_dedup
    (manifests : List Manifest) (output_name : String)
    (merged : List (String × Json)) (allNews N : List Json)
    (hok : merge_manifests manifests output_name = .ok merged)
    (hall : collectNews manifests = .ok allNews)
    (hnews : merged.lookup "news" = some (.arr N)) :
    (∀ (M : List Json) (n : Json),
      (pyMem n M = true → stepNews M n = M) ∧
      (pyMem n M = false → stepNews M n = M ++ [n])) ∧
    N.Pairwise (fun x y => pyEq y x = false) ∧
    N.Sublist allNews ∧
    ((merge_manifests
        [[("news", .arr [.obj [("title", .str "hello")]])],
         [("news", .arr [.obj [("title", .str "hello")]])]] output_name).map
      (fun d => d.lookup "news") =
      .ok (some (.arr [.obj [("title", .str "hello")]]))) := by
  obtain ⟨first, rest, allA, allN, hms, hca, hcn, hhash, hmeq, ha, hn, _, _⟩ :=
    merge_ok_spec manifests output_name merged hok
  have hNN : allN = allNews := Except.ok.inj (hcn.symm.trans hall)
  subst hNN
  have hN : N = allN.foldl stepNews [] := by
    have := hn.symm.trans hnews
    exact (Json.arr.inj (Option.some.inj this)).symm
  subst hN
  refine ⟨?_, ?_, ?_, ?_⟩
  · intro M n
    constructor
    · intro hm; simp [stepNews, hm]
    · intro hm; simp [stepNews, hm]
  · exact foldl_stepNews_pairwise allN [] List.Pairwise.nil
  · obtain ⟨D, hD, hs⟩ := foldl_stepNews_sublist allN []
    rw [hD, List.nil_append]
    exact hs
  · simp [merge_manifests, processManifest, appsOf, newsOf, pyIter, stepApp,
      stepNews, pyMem, pyEq, pyEqObjAll, pyLookupEq, normKey, truthy, hashable,
      copyMetadata, metadataKeys, dictSet,
      List.lookup, List.foldlM, Bind.bind, Except.bind, Pure.pure, Except.pure,
      Except.map]

/-- Witness for C5: a single manifest with one news item. -/
theorem C5_witness :
    (∀ (M : List Json) (n : Json),
      (pyMem n M = true → stepNews M n = M) ∧
      (pyMem n M = false → stepNews M n = M ++ [n])) ∧
    ([.obj [("title", .str "hello")]] : List Json).Pairwise
      (fun x y => pyEq y x = false) ∧
    List.Sublist ([.obj [("title", .str "hello")]] : List Json)
      ([.obj [("title", .str "hello")]] : List Json) ∧
    ((merge_manifests
        [[("news", .arr [.obj [("title", .str "hello")]])],
         [("news", .arr [.obj [("title", .str "hello")]])]] "R").map
      (fun d => d.lookup "news") =
      .ok (some (.arr [.obj [("title", .str "hello")]]))) :=
  C5_news_dedup
    [[("news", .arr [.obj [("title", .str "hello")]])]]
    "R"
    [("name", .str "R"), ("identifier", .str "com.octonezd.merged-repo"),
     ("iconURL", .str defaultIconURL),
     ("apps", .arr []),
     ("news", .arr [.obj [("title", .str "hello")]])]
    [.obj [("title", .str "hello")]]
    [.obj [("title", .str "hello")]]
    (by simp [merge_manifests, processManifest, appsOf, newsOf, pyIter, stepApp,
      stepNews, pyMem, pyEq, pyEqObjAll, pyLookupEq, normKey, truthy, hashable,
      copyMetadata, metadataKeys, dictSet,
      List.lookup, List.foldlM, Bind.bind, Except.bind, Pure.pure, Except.pure])
    (by rfl)
    (by rfl)

/-- **C6** (functional correctness): each of the seven metadata keys is
copied from the first input manifest exactly when present there (so in
particular a first-manifest `iconURL` replaces the built-in default),
and a metadata key absent from the first manifest keeps its base value
(the default for `iconURL`, absent otherwise) no matter what later
manifests contain. -/
theorem C6_first_manifest_metadata
    (first : Manifest) (rest : List Manifest) (output_name : String)
    (merged : List (String × Json))
    (hok : merge_manifests (first :: rest) output_name = .ok merged) :
    ∀ key ∈ metadataKeys,
      (∀ v, first.lookup key = some v → merged.lookup key = some v) ∧
      (first.lookup key = none →
        merged.lookup key =
          if key = "iconURL" then some (.str defaultIconURL) else none) := by
  obtain ⟨first', rest', allA, allN, hms, hca, hcn, hhash, hmeq, _, _, _, _⟩ :=
    merge_ok_spec (first :: rest) output_name merged hok
  have hf : first = first' := by injection hms
  subst hf
  intro key hkey
  constructor
  · intro v hv
    rw [hmeq]
    unfold copyMetadata
    rw [foldl_copy_lookup_mem metadataKeys first key hkey metadataKeys_nodup, hv]
  · intro hv
    rw [hmeq]
    unfold copyMetadata
    rw [foldl_copy_lookup_mem metadataKeys first key hkey metadataKeys_nodup, hv]
    fin_cases hkey <;> rfl

/-- Witness for C6: a first manifest carrying a custom `iconURL`. -/
theorem C6_witness :
    List.lookup "iconURL"
      ([("name", .str "R"), ("identifier", .str "com.octonezd.merged-repo"),
        ("iconURL", .str "https://example.org/icon.png"),
        ("apps", .arr []), ("news", .arr [])] : List (String × Json)) =
      some (.str "https://example.org/icon.png") :=
  ((C6_first_manifest_metadata [("iconURL", .str "https://example.org/icon.png")] []
      "R"
      [("name", .str "R"), ("identifier", .str "com.octonezd.merged-repo"),
       ("iconURL", .str "https://example.org/icon.png"),
       ("apps", .arr []), ("news", .arr [])]
      (by rfl)) "iconURL" (by decide)).1
    (.str "https://example.org/icon.png") (by rfl)

/-- **C7** (frame effect): the merged output's `identifier` is always
the fixed string `com.octonezd.merged-repo` and its `name` is always
the given output name, whatever the inputs; and the metadata-copy step
never changes the `name`, `identifier`, `apps` or `news` bindings of
any dict it is applied to. -/
theorem C7_fixed_identity
    (manifests : List Manifest) (output_name : String)
    (merged : List (String × Json))
    (hok : merge_manifests manifests output_name = .ok merged) :
    merged.lookup "identifier" = some (.str "com.octonezd.merged-repo") ∧
    merged.lookup "name" = some (.str output_name) ∧
    (∀ (first : Manifest) (d : List (String × Json)) (k : String),
      k ∈ (["name", "identifier", "apps", "news"] : List String) →
      (copyMetadata first d).lookup k = d.lookup k) := by
  obtain ⟨first, rest, allA, allN, hms, hca, hcn, hhash, hmeq, _, _, hname, hident⟩ :=
    merge_ok_spec manifests output_name merged hok
  refine ⟨hident, hname, ?_⟩
  intro f d k hk
  unfold copyMetadata
  fin_cases hk <;> exact foldl_copy_lookup_notmem metadataKeys f _ (by decide) d

/-- Witness for C7: merging one empty manifest. -/
theorem C7_witness :
    List.lookup "identifier"
      ([("name", .str "R"), ("identifier", .str "com.octonezd.merged-repo"),
        ("iconURL", .str defaultIconURL), ("apps", .arr []), ("news", .arr [])] :
        List (String × Json)) =
      some (.str "com.octonezd.merged-repo") :=
  (C7_fixed_identity [[]] "R"
      [("name", .str "R"), ("identifier", .str "com.octonezd.merged-repo"),
       ("iconURL", .str defaultIconURL), ("apps", .arr []), ("news", .arr [])]
      (by rfl)).1

/-- **C8** (algebraic/relational): merging a one-manifest list yields
`apps`/`news` equal to the dedup loops run over that manifest's own
`apps`/`news` alone; in particular, when the manifest's own sequences
are already duplicate-free, the merged sequences are identical to them
in order and content, and duplicates within the single manifest are
still removed by the same rules. -/
theorem C8_singleton_merge
    (m : Manifest) (output_name : String)
    (merged : List (String × Json)) (as ns : List Json)
    (hok : merge_manifests [m] output_name = .ok merged)
    (has : appsOf m = .ok as)
    (hns : newsOf m = .ok ns) :
    merged.lookup "apps" = some (.arr (dedupAppend [] [] as).1) ∧
    merged.lookup "news" = some (.arr (ns.foldl stepNews [])) ∧
    ((as.filterMap appKey).Nodup → (dedupAppend [] [] as).1 = as) ∧
    (ns.Pairwise (fun x y => pyEq y x = false) → ns.foldl stepNews [] = ns) := by
  obtain ⟨first, rest, allA, allN, hms, hca, hcn, hhash, hmeq, ha, hn, _, _⟩ :=
    merge_ok_spec [m] output_name merged hok
  have hca' : collectApps [m] = .ok (as ++ []) := by
    simp [collectApps, has, Bind.bind, Except.bind, Pure.pure, Except.pure]
  have hcn' : collectNews [m] = .ok (ns ++ []) := by
    simp [collectNews, hns, Bind.bind, Except.bind, Pure.pure, Except.pure]
  have hAA : allA = as := by
    have := Except.ok.inj (hca.symm.trans hca')
    simpa using this
  have hNN : allN = ns := by
    have := Except.ok.inj (hcn.symm.trans hcn')
    simpa using this
  subst hAA
  subst hNN
  refine ⟨ha, hn, ?_, ?_⟩
  · intro hnd
    have := dedupAppend_of_nodup allA [] [] hhash
      (fun s hs => absurd hs (List.not_mem_nil s))
      (fun b _ _ => by simp [pyMem])
      hnd
    simpa using this
  · intro hp
    have := foldl_stepNews_of_distinct allN [] (fun n _ => by simp [pyMem]) hp
    simpa using this

/-- Witness for C8: one manifest with one identified app and one news
item. -/
theorem C8_witness :
    List.lookup "apps"
      ([("name", .str "R"), ("identifier", .str "com.octonezd.merged-repo"),
        ("iconURL", .str defaultIconURL),
        ("apps", .arr [.obj [("bundleIdentifier", .str "x")]]),
        ("news", .arr [.obj [("title", .str "hello")]])] : List (String × Json)) =
      some (.arr (dedupAppend [] [] [.obj [("bundleIdentifier", .str "x")]]).1) ∧
    (dedupAppend [] [] [.obj [("bundleIdentifier", .str "x")]]).1 =
      [.obj [("bundleIdentifier", .str "x")]] ∧
    List.foldl stepNews [] [.obj [("title", .str "hello")]] =
      [.obj [("title", .str "hello")]] := by
  have h := C8_singleton_merge
    [("apps", .arr [.obj [("bundleIdentifier", .str "x")]]),
     ("news", .arr [.obj [("title", .str "hello")]])]
    "R"
    [("name", .str "R"), ("identifier", .str "com.octonezd.merged-repo"),
     ("iconURL", .str defaultIconURL),
     ("apps", .arr [.obj [("bundleIdentifier", .str "x")]]),
     ("news", .arr [.obj [("title", .str "hello")]])]
    [.obj [("bundleIdentifier", .str "x")]]
    [.obj [("title", .str "hello")]]
    (by simp [merge_manifests, processManifest, appsOf, newsOf, pyIter, stepApp,
      stepNews, pyMem, pyEq, pyEqObjAll, pyLookupEq, normKey, truthy, hashable,
      copyMetadata, metadataKeys, dictSet,
      List.lookup, List.foldlM, Bind.bind, Except.bind, Pure.pure, Except.pure])
    (by rfl) (by rfl)
  exact ⟨h.1, h.2.2.1 (by decide), h.2.2.2 (List.pairwise_singleton _ _)⟩

/-- **C9** (implicit): an app entry whose `bundleIdentifier` key maps
to any falsy JSON value (`null`, `false`, `0`, `""`, `[]`, `{}`) is
treated exactly like an app with a missing identifier: `stepApp`
appends it unconditionally, leaves the seen-identifier set unchanged,
and raises no error — exactly the behaviour on a missing key. -/
theorem C9_falsy_identifier
    (v : Json)
    (hv : v ∈ ([.null, .bool false, .num 0, .str "", .arr [], .obj []] : List Json))
    (kvs : List (String × Json)) (A S : List Json)
    (hlook : kvs.lookup "bundleIdentifier" = some v) :
    stepApp (A, S) (.obj kvs) = .ok (A ++ [.obj kvs], S) ∧
    (∀ kvs' : List (String × Json), kvs'.lookup "bundleIdentifier" = none →
      stepApp (A, S) (.obj kvs') = .ok (A ++ [.obj kvs'], S)) := by
  constructor
  · have ht : truthy v = false := by
      simp only [List.mem_cons, List.not_mem_nil, or_false] at hv
      rcases hv with rfl | rfl | rfl | rfl | rfl | rfl <;> rfl
    simp [stepApp, hlook, ht]
  · intro kvs' hlook'
    simp [stepApp, hlook', truthy]

/-- Witness for C9: `bundleIdentifier` bound to `0`. -/
theorem C9_witness :
    stepApp ([], []) (.obj [("bundleIdentifier", .num 0)]) =
      .ok ([.obj [("bundleIdentifier", .num 0)]], []) := by
  have h := C9_falsy_identifier (.num 0) (by simp)
    [("bundleIdentifier", .num 0)] [] [] (by rfl)
  simpa using h.1

/-- Writing at an address at or above `n` leaves every cell below `n`
unchanged. -/
theorem hwrite_frame (h : Heap) (a : Nat) (o : PyObj) (n b : Nat)
    (hna : n ≤ a) (hb : b < n) : (hwrite h a o)[b]? = h[b]? := by
  unfold hwrite
  exact List.getElem?_set_ne (by omega)

/-- A fold of prefix-preserving heap steps preserves the prefix. -/
theorem foldlM_frame {α : Type} (f : Heap → α → Except PyError Heap) (n : Nat)
    (hf : ∀ h x h', f h x = .ok h' → ∀ b, b < n → h'[b]? = h[b]?) :
    ∀ (l : List α) (h h' : Heap), l.foldlM f h = .ok h' →
      ∀ b, b < n → h'[b]? = h[b]? := by
  intro l
  induction l with
  | nil =>
    intro h h' hok b hb
    have : h = h' := by simpa [List.foldlM_nil, Pure.pure, Except.pure] using hok
    rw [this]
  | cons x rest ih =>
    intro h h' hok b hb
    simp only [List.foldlM_cons] at hok
    rw [except_bind_ok] at hok
    obtain ⟨h1, h1ok, hok⟩ := hok
    rw [ih h1 h' hok b hb, hf h x h1 h1ok b hb]

/-- The heap app step writes only the `apps` list cell and the seen
set cell. -/
theorem stepAppHeap_frame (aApps aSeen n : Nat) (hA : n ≤ aApps) (hS : n ≤ aSeen)
    (h h' : Heap) (appv : PyVal)
    (hok : stepAppHeap aApps aSeen h appv = .ok h') :
    ∀ b, b < n → h'[b]? = h[b]? := by
  intro b hb
  unfold stepAppHeap at hok
  rw [except_bind_ok] at hok
  obtain ⟨kvs, _, hok⟩ := hok
  simp only [] at hok
  rw [except_bind_ok] at hok
  obtain ⟨tb, _, hok⟩ := hok
  cases tb with
  | false =>
    simp only [Bool.false_eq_true, if_false] at hok
    rw [except_bind_ok] at hok
    obtain ⟨apps, _, hok⟩ := hok
    have : h' = hwrite h aApps (.plist (apps ++ [appv])) := by
      cases hok; rfl
    rw [this]
    exact hwrite_frame h aApps _ n b hA hb
  | true =>
    simp only [if_true] at hok
    by_cases hh : heapHashable ((kvs.lookup "bundleIdentifier").getD (.vstr "")) = true
    · rw [if_pos hh] at hok
      rw [except_bind_ok] at hok
      obtain ⟨seen, _, hok⟩ := hok
      by_cases hm : heapMemSet ((kvs.lookup "bundleIdentifier").getD (.vstr "")) seen = true
      · rw [if_pos hm] at hok
        have : h = h' := by simpa [Pure.pure, Except.pure] using hok
        rw [this]
      · rw [if_neg hm] at hok
        rw [except_bind_ok] at hok
        obtain ⟨apps, _, hok⟩ := hok
        have : h' = hwrite (hwrite h aApps (.plist (apps ++ [appv]))) aSeen
            (.pset (seen ++ [(kvs.lookup "bundleIdentifier").getD (.vstr "")])) := by
          cases hok; rfl
        rw [this, hwrite_frame _ aSeen _ n b hS hb,
          hwrite_frame _ aApps _ n b hA hb]
    · rw [if_neg hh] at hok
      cases hok

/-- The heap news step writes only the `news` list cell. -/
theorem stepNewsHeap_frame (aNews n : Nat) (hN : n ≤ aNews)
    (h h' : Heap) (nv : PyVal)
    (hok : stepNewsHeap aNews h nv = .ok h') :
    ∀ b, b < n → h'[b]? = h[b]? := by
  intro b hb
  unfold stepNewsHeap at hok
  rw [except_bind_ok] at hok
  obtain ⟨news, _, hok⟩ := hok
  rw [except_bind_ok] at hok
  obtain ⟨bres, _, hok⟩ := hok
  cases bres with
  | true =>
    simp only [if_true] at hok
    have : h = h' := by simpa [Pure.pure, Except.pure] using hok
    rw [this]
  | false =>
    simp only [Bool.false_eq_true, if_false] at hok
    have : h' = hwrite h aNews (.plist (news ++ [nv])) := by
      cases hok; rfl
    rw [this]
    exact hwrite_frame h aNews _ n b hN hb

/-- Processing one manifest on the heap writes only the three
accumulator cells. -/
theorem processManifestHeap_frame (aApps aNews aSeen n : Nat)
    (hA : n ≤ aApps) (hN : n ≤ aNews) (hS : n ≤ aSeen)
    (h h' : Heap) (mref : Nat)
    (hok : processManifestHeap aApps aNews aSeen h mref = .ok h') :
    ∀ b, b < n → h'[b]? = h[b]? := by
  intro b hb
  unfold processManifestHeap at hok
  rw [except_bind_ok] at hok
  obtain ⟨kvs, _, hok⟩ := hok
  rw [except_bind_ok] at hok
  obtain ⟨items, _, hok⟩ := hok
  rw [except_bind_ok] at hok
  obtain ⟨h1, h1ok, hok⟩ := hok
  have hpre1 : h1[b]? = h[b]? :=
    foldlM_frame (stepAppHeap aApps aSeen) n
      (fun hh x hh' hstep => stepAppHeap_frame aApps aSeen n hA hS hh hh' x hstep)
      items h h1 h1ok b hb
  rw [except_bind_ok] at hok
  obtain ⟨kvs1, _, hok⟩ := hok
  rw [except_bind_ok] at hok
  obtain ⟨nitems, _, hok⟩ := hok
  rw [foldlM_frame (stepNewsHeap aNews) n
    (fun hh x hh' hstep => stepNewsHeap_frame aNews n hN hh hh' x hstep)
    nitems h1 h' hok b hb, hpre1]

/-- The metadata-copy loop on the heap writes only the merged dict
cell. -/
theorem copyMetadataHeap_frame (aMerged n : Nat) (hM : n ≤ aMerged)
    (first_kvs : List (String × PyVal)) (h h' : Heap)
    (hok : copyMetadataHeap aMerged first_kvs h = .ok h') :
    ∀ b, b < n → h'[b]? = h[b]? := by
  unfold copyMetadataHeap at hok
  refine foldlM_frame _ n ?_ metadataKeys h h' hok
  intro hh key hh' hstep
  intro b hb
  cases hl : first_kvs.lookup key with
  | none =>
    rw [hl] at hstep
    have : hh = hh' := by simpa [Pure.pure, Except.pure] using hstep
    rw [this]
  | some v =>
    rw [hl] at hstep
    rw [except_bind_ok] at hstep
    obtain ⟨merged, _, hstep⟩ := hstep
    have : hh' = hwrite hh aMerged (.pdict (pdictSet merged key v)) := by
      cases hstep; rfl
    rw [this]
    exact hwrite_frame hh aMerged _ n b hM hb

/-- **C10** (implicit, frame effect): merge leaves its inputs
unchanged.  On the explicit heap, a successful
`merge_manifests_heap` run leaves every pre-existing heap cell — in
particular each input manifest dict, its apps/news list cells, every
app/news object they reference, and the cell holding the input list
itself, all of which live below the initial heap size — exactly as it
was: every write of the run targets one of the four freshly allocated
accumulator cells. -/
theorem C10_inputs_unchanged
    (h0 : Heap) (manifests : List Nat) (output_name : String)
    (hfin : Heap) (r : Nat)
    (hok : merge_manifests_heap h0 manifests output_name = .ok (hfin, r)) :
    ∀ a, a < h0.length → hfin[a]? = h0[a]? := by
  intro a ha
  cases manifests with
  | nil => simp [merge_manifests_heap] at hok
  | cons firstRef rest =>
    unfold merge_manifests_heap at hok
    simp only [halloc] at hok
    rw [except_bind_ok] at hok
    obtain ⟨h5, h5ok, hok⟩ := hok
    rw [except_bind_ok] at hok
    obtain ⟨first_kvs, _, hok⟩ := hok
    rw [except_bind_ok] at hok
    obtain ⟨h6, h6ok, hok⟩ := hok
    have hfin6 : hfin = h6 := by
      have h' := hok
      simp only [Pure.pure, Except.pure, Except.ok.injEq, Prod.mk.injEq] at h'
      exact h'.1.symm
    have h65 := copyMetadataHeap_frame _ h0.length
      (by (try simp only [List.length_append, List.length_cons, List.length_nil]); omega)
      first_kvs h5 h6 h6ok a ha
    have h54 := foldlM_frame _ h0.length
      (fun hh x hh' hstep => processManifestHeap_frame _ _ _ h0.length
        (by (try simp only [List.length_append, List.length_cons, List.length_nil]); omega)
        (by (try simp only [List.length_append, List.length_cons, List.length_nil]); omega)
        (by (try simp only [List.length_append, List.length_cons, List.length_nil]); omega)
        hh hh' x hstep)
      (firstRef :: rest) _ h5 h5ok a ha
    rw [hfin6, h65, h54]
    rw [List.getElem?_append_left
        (by (try simp only [List.length_append, List.length_cons, List.length_nil]); omega),
      List.getElem?_append_left
        (by (try simp only [List.length_append, List.length_cons, List.length_nil]); omega),
      List.getElem?_append_left
        (by (try simp only [List.length_append, List.length_cons, List.length_nil]); omega),
      List.getElem?_append_left ha]

/-- Witness for C10: one manifest dict (cell 0) whose apps list
(cell 1) references one app dict (cell 2); after the merge, cell 0 is
unchanged. -/
theorem C10_witness :
    (([.pdict [("apps", .ref 1)], .plist [.ref 2],
       .pdict [("bundleIdentifier", .vstr "x")],
       .plist [.ref 2], .plist [],
       .pdict [("name", .vstr "R"),
               ("identifier", .vstr "com.octonezd.merged-repo"),
               ("iconURL", .vstr defaultIconURL),
               ("apps", .ref 3), ("news", .ref 4)],
       .pset [.vstr "x"]] : Heap))[0]? =
    (([.pdict [("apps", .ref 1)], .plist [.ref 2],
       .pdict [("bundleIdentifier", .vstr "x")]] : Heap))[0]? :=
  C10_inputs_unchanged
    [.pdict [("apps", .ref 1)], .plist [.ref 2],
     .pdict [("bundleIdentifier", .vstr "x")]]
    [0] "R"
    [.pdict [("apps", .ref 1)], .plist [.ref 2],
     .pdict [("bundleIdentifier", .vstr "x")],
     .plist [.ref 2], .plist [],
     .pdict [("name", .vstr "R"),
             ("identifier", .vstr "com.octonezd.merged-repo"),
             ("iconURL", .vstr defaultIconURL),
             ("apps", .ref 3), ("news", .ref 4)],
     .pset [.vstr "x"]]
    5
    (by rfl)
    0 (by decide)
